import Mathlib

/-!
Verification of the lattice construction and decoding engine of the
Tokenizer-Visualization repository (`src/utils/tokenizerEngine.ts` together
with the vocabulary constants of `src/constants.ts`).

Modelling conventions:
* JS strings are modelled as `List Char` (one entry per Unicode character).
* JS floating-point numbers are modelled as elements of an abstract linearly
  ordered field `α`; the runtime functions `Math.exp` and `Math.log` are
  passed in as parameters `exp log : α → α` (they are never applied to a
  concrete argument by the structural claims, and score-level claims are
  stated for arbitrary `exp`/`log`).
* The runtime Unicode operations `String.prototype.toLowerCase` and
  `String.prototype.normalize("NFD")` used by `normalizeText` are likewise
  passed in as parameters `lower nfd : List Char → List Char`.
* The JS `Infinity` initialization of the Viterbi cost table is modelled by
  `Option α` with `none` standing for `Infinity`.
* JS `while` loops are modelled by fuel-indexed recursion with enough fuel
  for every run that terminates in the source.
-/

/-- Decimal digit list of a natural number, most significant digit first,
with a structural fuel argument so that it evaluates by kernel reduction.
Models the decimal rendering of a nonnegative integer performed by a JS
template literal. -/
def natDigitsCore (fuel : Nat) (n : Nat) : List Char :=
  match fuel with
  | 0 => []
  | fuel + 1 =>
    if n < 10 then [Nat.digitChar n]
    else natDigitsCore fuel (n / 10) ++ [Nat.digitChar (n % 10)]

/-- Decimal digits of a natural number, most significant digit first. -/
def natDigits (n : Nat) : List Char := natDigitsCore (n + 1) n

/-- Decimal rendering of an integer, as a JS template literal produces it. -/
def intDigits (i : Int) : List Char :=
  if i < 0 then '-' :: natDigits (-i).toNat else natDigits i.toNat

/-- Character data of a string literal (JS strings are modelled as `List Char`). -/
def strL (s : String) : List Char := s.data

/-- Modelled from the spec: the closed three-variant algorithm enumeration
(`AlgorithmType` of `src/types.ts`, a file whose source is not included);
the spec fixes exactly three variants: rank-greedy (BPE), continuation-marked
greedy (WordPiece) and probabilistic (Unigram). -/
inductive AlgorithmType : Type
  | BPE : AlgorithmType
  | WORDPIECE : AlgorithmType
  | UNIGRAM : AlgorithmType
deriving DecidableEq

/-- Modelled from the spec: a vocabulary entry, a (token string, numeric
score) pair (`VocabItem` of `src/types.ts`). -/
structure VocabItem (α : Type) where
  token : List Char
  score : α
deriving DecidableEq

/-- Modelled from the spec: a lattice edge `(from, to, label, score)` with a
string identifier (`TokenEdge` of `src/types.ts`); the fields `from`/`to`
are named `efrom`/`eto` because `from` is a Lean keyword. -/
structure TokenEdge (α : Type) where
  id : List Char
  efrom : Nat
  eto : Nat
  label : List Char
  score : α
deriving DecidableEq

/-- Lookup in a JS object built by assignments in list order: a later
assignment to the same key overwrites an earlier one, so the lookup returns
the value of the last matching pair. -/
def objGet {α : Type} (m : List (List Char × α)) (k : List Char) : Option α :=
  (m.reverse.find? fun p => decide (p.1 = k)).map (·.2)

section Engine

variable {α : Type} [LinearOrderedField α]

/-- The probability table derived from a custom vocabulary in
`buildLattice` (`src/utils/tokenizerEngine.ts` lines 30-35): a softmax of
the raw scores, assigned token by token in vocabulary order.  The sum of
exponentials is replaced by `1` when it is `0` (the JS `|| 1`). -/
def softmaxTable (exp : α → α) (vocab : List (VocabItem α)) : List (List Char × α) :=
  let expScores := vocab.map fun v => exp v.score
  let expSum0 := expScores.foldl (· + ·) 0
  let expSum := if expSum0 = 0 then 1 else expSum0
  (vocab.zip expScores).map fun p => (p.1.token, p.2 / expSum)

/-- The rank table derived from a vocabulary list: each token is assigned
its zero-based index in the given list order (`bpeRanks[v.token] = idx` in
`buildLattice`, and the same pattern over the sorted list in
`src/constants.ts`). -/
def rankTable (vocab : List (VocabItem α)) : List (List Char × α) :=
  vocab.enum.map fun p => (p.2.token, (p.1 : α))

/-- Stable insertion of a vocabulary item into a list sorted by strictly
descending score; used to model the stable JS `Array.prototype.sort` with
comparator `(a, b) => b.score - a.score` from `src/constants.ts`. -/
def insertByScore (v : VocabItem α) : List (VocabItem α) → List (VocabItem α)
  | [] => [v]
  | c :: cs => if c.score > v.score then c :: insertByScore v cs else v :: c :: cs

/-- Stable sort by descending score (ties keep their original order), the
behaviour of the JS stable sort with comparator `(a, b) => b.score - a.score`. -/
def sortByScoreDesc (l : List (VocabItem α)) : List (VocabItem α) :=
  l.foldr insertByScore []

/-- The FALLBACK_VOCAB literal of `src/constants.ts` (the `vocab.json` fetch
never runs before module evaluation, so the exported `MOCK_VOCAB` is always
this list).  The score `0.5` is written `1 / 2`. -/
def FALLBACK_VOCAB (α : Type) [LinearOrderedField α] : List (VocabItem α) :=
  [⟨strL "t", 1⟩, ⟨strL "th", 2⟩, ⟨strL "the", 5⟩, ⟨strL "a", 1⟩,
   ⟨strL "an", 2⟩, ⟨strL "un", 3⟩, ⟨strL "in", 2⟩, ⟨strL "inter", 4⟩,
   ⟨strL "run", 3⟩, ⟨strL "running", 6⟩,
   ⟨strL "at", 1⟩, ⟨strL "tre", 2⟩, ⟨strL "re", 1⟩, ⟨strL "r", 1 / 2⟩,
   ⟨strL "ing", 4⟩, ⟨strL "n", 1 / 2⟩, ⟨strL "i", 1 / 2⟩, ⟨strL "tion", 5⟩,
   ⟨strL "national", 6⟩, ⟨strL "ali", 3⟩, ⟨strL "zation", 5⟩, ⟨strL "is", 2⟩,
   ⟨strL "on", 1⟩, ⟨strL "count", 4⟩, ⟨strL "er", 2⟩, ⟨strL "intui", 4⟩,
   ⟨strL "tive", 4⟩, ⟨strL "happ", 3⟩, ⟨strL "y", 1⟩, ⟨strL "ness", 3⟩,
   ⟨strL "est", 2⟩, ⟨strL "low", 3⟩, ⟨strL "new", 3⟩, ⟨strL "neural", 5⟩,
   ⟨strL "net", 3⟩, ⟨strL "work", 3⟩, ⟨strL "works", 4⟩,
   ⟨strL "token", 5⟩, ⟨strL "tokeni", 4⟩, ⟨strL "tokeniz", 5⟩,
   ⟨strL "tokenize", 6⟩, ⟨strL "tokenizer", 7⟩, ⟨strL "ize", 3⟩,
   ⟨strL "izer", 4⟩,
   ⟨strL "##ing", 4⟩, ⟨strL "##tion", 5⟩, ⟨strL "##er", 2⟩,
   ⟨strL "##ness", 3⟩, ⟨strL "##y", 1⟩, ⟨strL "##s", 1⟩]

/-- The exported `MOCK_VOCAB` of `src/constants.ts` as seen by any call into
the engine: the `BPE_RANKS` block sorts the array in place by descending
score before any tokenization can run, so the engine always sees the sorted
list. -/
def MOCK_VOCAB (α : Type) [LinearOrderedField α] : List (VocabItem α) :=
  sortByScoreDesc (FALLBACK_VOCAB α)

/-- The `UNIGRAM_PROBS` table of `src/constants.ts`: the softmax table over
the original (pre-sort) vocabulary order. -/
def UNIGRAM_PROBS (α : Type) [LinearOrderedField α] (exp : α → α) : List (List Char × α) :=
  softmaxTable exp (FALLBACK_VOCAB α)

/-- The `BPE_RANKS` table of `src/constants.ts`: ranks assigned over the
list sorted by descending score. -/
def BPE_RANKS (α : Type) [LinearOrderedField α] : List (List Char × α) :=
  rankTable (MOCK_VOCAB α)

/-- The vocabulary match performed by `buildLattice` for the substring
`text[i:j]`: first a bare `vocab.find` on the substring; when that fails and
the algorithm is WORDPIECE with `i > 0`, a second `vocab.find` on
`"##" + substring` (`src/utils/tokenizerEngine.ts` lines 49-57). -/
def findMatch (vocab : List (VocabItem α)) (algo : AlgorithmType)
    (text : List Char) (i j : Nat) : Option (VocabItem α) :=
  let substr := (text.drop i).take (j - i)
  match vocab.find? fun v => decide (v.token = substr) with
  | some v => some v
  | none =>
    if algo = AlgorithmType.WORDPIECE ∧ 0 < i then
      vocab.find? fun v => decide (v.token = '#' :: '#' :: substr)
    else none

/-- The UNIGRAM probability lookup floor: the looked-up probability is
replaced by `0.0001` when it is absent or `0` (the JS falsy check
`unigramProbs[match.token] || 0.0001`). -/
def probFloor (o : Option α) : α :=
  match o with
  | some p => if p = 0 then 1 / 10000 else p
  | none => 1 / 10000

/-- The per-algorithm score of a matched edge (`src/utils/tokenizerEngine.ts`
lines 63-76).  For UNIGRAM the cost is `-log` of the floored probability
lookup; for BPE an absent rank becomes the sentinel `999` (the JS `?? 999`);
for WORDPIECE the score is the substring length. -/
def matchScore (log : α → α) (algo : AlgorithmType)
    (uniProbs bpeRanks : List (List Char × α)) (v : VocabItem α)
    (substr : List Char) : α :=
  match algo with
  | AlgorithmType.UNIGRAM => -(log (probFloor (objGet uniProbs v.token)))
  | AlgorithmType.BPE => (objGet bpeRanks v.token).getD 999
  | AlgorithmType.WORDPIECE => ((substr.length : Nat) : α)

/-- The edge pushed for a successful match of `text[i:j]`
(`src/utils/tokenizerEngine.ts` lines 78-84). -/
def mkMatchEdge (log : α → α) (algo : AlgorithmType)
    (uniProbs bpeRanks : List (List Char × α)) (text : List Char)
    (i j : Nat) (v : VocabItem α) : TokenEdge α :=
  { id := strL "edge-" ++ natDigits i ++ strL "-" ++ natDigits j ++ strL "-" ++ v.token
    efrom := i
    eto := j
    label := v.token
    score := matchScore log algo uniProbs bpeRanks v ((text.drop i).take (j - i)) }

/-- The single-character fallback edge pushed at position `i` when no
vocabulary token matches there (`src/utils/tokenizerEngine.ts` lines 88-99). -/
def fallbackEdge (text : List Char) (i : Nat) : TokenEdge α :=
  { id := strL "edge-" ++ natDigits i ++ strL "-" ++ natDigits (i + 1) ++
      strL "-fallback-" ++ (text.drop i).take 1
    efrom := i
    eto := i + 1
    label := (text.drop i).take 1
    score := 10 }

/-- The matched edges pushed by the `buildLattice` inner loop for start
position `i`, in increasing order of the end position
`j = i+1 .. min(n, i+20)` (`MAX_TOKEN_LENGTH = 20`). -/
def matchedEdges (log : α → α) (algo : AlgorithmType) (vocab : List (VocabItem α))
    (uniProbs bpeRanks : List (List Char × α)) (text : List Char)
    (i : Nat) : List (TokenEdge α) :=
  (List.range' (i + 1) (min text.length (i + 20) - i)).filterMap fun j =>
    (findMatch vocab algo text i j).map (mkMatchEdge log algo uniProbs bpeRanks text i j)

/-- All edges pushed by the `buildLattice` loop body for start position `i`:
the matched edges in order, or the single fallback edge when no `j` matched
(`hasMatchAtPosition` stays false exactly when the matched list is empty). -/
def edgesAt (log : α → α) (algo : AlgorithmType) (vocab : List (VocabItem α))
    (uniProbs bpeRanks : List (List Char × α)) (text : List Char)
    (i : Nat) : List (TokenEdge α) :=
  if matchedEdges log algo vocab uniProbs bpeRanks text i = [] then [fallbackEdge text i]
  else matchedEdges log algo vocab uniProbs bpeRanks text i

/-- The vocabulary used by `buildLattice`: the custom one when supplied
(`customVocab || MOCK_VOCAB`; note that an empty JS array is truthy, so an
empty supplied vocabulary is used as is). -/
def vocabOf (customVocab : Option (List (VocabItem α))) : List (VocabItem α) :=
  customVocab.getD (MOCK_VOCAB α)

/-- The probability table used by `buildLattice`: derived from the custom
vocabulary when supplied, otherwise the precomputed `UNIGRAM_PROBS`. -/
def uniProbsOf (exp : α → α) (customVocab : Option (List (VocabItem α))) :
    List (List Char × α) :=
  match customVocab with
  | some cv => softmaxTable exp cv
  | none => UNIGRAM_PROBS α exp

/-- The rank table used by `buildLattice`: derived from the custom
vocabulary when supplied, otherwise the precomputed `BPE_RANKS`. -/
def bpeRanksOf (customVocab : Option (List (VocabItem α))) :
    List (List Char × α) :=
  match customVocab with
  | some cv => rankTable cv
  | none => BPE_RANKS α

/-- The lattice builder `buildLattice` of `src/utils/tokenizerEngine.ts`:
returns the edge list and the node list `0 .. text.length`.  When no custom
vocabulary is supplied the engine falls back to `MOCK_VOCAB` with the
precomputed tables of `src/constants.ts`; otherwise both tables are derived
from the supplied vocabulary. -/
def buildLattice (exp log : α → α) (text : List Char) (algo : AlgorithmType)
    (customVocab : Option (List (VocabItem α))) :
    List (TokenEdge α) × List Nat :=
  ((List.range text.length).flatMap
    (edgesAt log algo (vocabOf customVocab) (uniProbsOf exp customVocab)
      (bpeRanksOf customVocab) text),
   List.range (text.length + 1))

/-- Span of an edge as the JS comparator computes it (`(e.to - e.from)` on
JS numbers, hence over the integers). -/
def spanInt (e : TokenEdge α) : Int := (e.eto : Int) - (e.efrom : Int)

/-- Stable insertion of an edge into a list sorted by strictly descending
span: the new edge goes after every already placed edge of span greater
than or equal to its own. -/
def insertBySpan (e : TokenEdge α) : List (TokenEdge α) → List (TokenEdge α)
  | [] => [e]
  | c :: cs => if spanInt c > spanInt e then c :: insertBySpan e cs else e :: c :: cs

/-- The candidate ordering of `greedyDecode`: the stable JS
`Array.prototype.sort` with comparator
`(a, b) => (b.to - b.from) - (a.to - a.from)` (ties return `0`, so a stable
sort keeps their original order). -/
def sortCandidates (l : List (TokenEdge α)) : List (TokenEdge α) :=
  l.foldr insertBySpan []

/-- The `while` loop of `greedyDecode` (`src/utils/tokenizerEngine.ts`
lines 110-133), as fuel-indexed recursion: at the current node, filter the
outgoing edges, stop on a dead end, otherwise follow the head of the stably
sorted candidate list.  The fuel `length + 1` given by `greedyDecode` is
enough for every terminating run of the source loop. -/
def greedyGo (edges : List (TokenEdge α)) (length : Nat) :
    Nat → Nat → List (List Char)
  | 0, _ => []
  | fuel + 1, current =>
    if current < length then
      match sortCandidates (edges.filter fun e => decide (e.efrom = current)) with
      | [] => []
      | best :: _ => best.id :: greedyGo edges length fuel best.eto
    else []

/-- The greedy (forward longest-match) decoder used for BPE and WORDPIECE. -/
def greedyDecode (edges : List (TokenEdge α)) (length : Nat) : List (List Char) :=
  greedyGo edges length (length + 1) 0

/-- One entry of the Viterbi dynamic-programming array
(`minCost[i] = { cost, edgeId, prevNode }`); `cost = none` models the JS
`Infinity` initialization. -/
structure VNode (α : Type) where
  cost : Option α
  edgeId : Option (List Char)
  prevNode : Int
deriving DecidableEq

/-- The default entry used for out-of-range reads (never reached on the
lattices the engine builds). -/
def vDefault (α : Type) : VNode α := ⟨none, none, -1⟩

/-- The initial Viterbi array: every node at `Infinity` except node `0` at
cost `0`. -/
def vInit (length : Nat) : List (VNode α) :=
  (List.replicate (length + 1) (vDefault α)).set 0 ⟨some 0, none, -1⟩

/-- Whether a freshly computed cost strictly improves on a stored one; the
stored `Infinity` (`none`) is always improved on (`newCost < Infinity`). -/
def improves (newCost : α) (stored : Option α) : Bool :=
  match stored with
  | none => true
  | some ct => decide (newCost < ct)

/-- One relaxation of a single edge out of node `i`
(`newCost = minCost[i].cost + edge.score`, update on strict improvement;
a comparison against `Infinity` always succeeds). -/
def relaxStep (mc : List (VNode α)) (i : Nat) (edge : TokenEdge α) :
    List (VNode α) :=
  match (mc.getD i (vDefault α)).cost with
  | none => mc
  | some ci =>
    if improves (ci + edge.score) ((mc.getD edge.eto (vDefault α)).cost)
    then mc.set edge.eto ⟨some (ci + edge.score), some edge.id, (i : Int)⟩
    else mc

/-- The body of the outer Viterbi loop for node `i`: skip unreachable nodes
(`cost === Infinity`), otherwise relax every outgoing edge in edge-list
order. -/
def relaxAt (edges : List (TokenEdge α)) (mc : List (VNode α)) (i : Nat) :
    List (VNode α) :=
  match (mc.getD i (vDefault α)).cost with
  | none => mc
  | some _ =>
    (edges.filter fun e => decide (e.efrom = i)).foldl
      (fun m e => relaxStep m i e) mc

/-- The filled Viterbi array after processing nodes `0 .. length-1` in
increasing order. -/
def viterbiTable (edges : List (TokenEdge α)) (length : Nat) : List (VNode α) :=
  (List.range length).foldl (relaxAt edges) (vInit length)

/-- The backtracking `while` loop of `viterbiDecode`: walk recorded
predecessors from the sink, prepending each recorded edge id (the JS
`path.unshift`), stopping at node `0` or on a missing edge id. -/
def vBacktrack (mc : List (VNode α)) : Nat → Int → List (List Char) → List (List Char)
  | 0, _, path => path
  | fuel + 1, curr, path =>
    if 0 < curr then
      match (mc.getD curr.toNat (vDefault α)).edgeId with
      | none => path
      | some eid => vBacktrack mc fuel (mc.getD curr.toNat (vDefault α)).prevNode (eid :: path)
    else path

/-- The Viterbi (minimum-cost) decoder used for UNIGRAM
(`src/utils/tokenizerEngine.ts` lines 142-169). -/
def viterbiDecode (edges : List (TokenEdge α)) (length : Nat) : List (List Char) :=
  vBacktrack (viterbiTable edges length) (length + 1) (length : Int) []

end Engine

/-- The JS whitespace code points removed by `String.prototype.trim`. -/
def jsWsCodes : List Nat :=
  [9, 10, 11, 12, 13, 32, 160, 0x1680, 0x2000, 0x2001, 0x2002, 0x2003,
   0x2004, 0x2005, 0x2006, 0x2007, 0x2008, 0x2009, 0x200A, 0x2028, 0x2029,
   0x202F, 0x205F, 0x3000, 0xFEFF]

/-- Whether a character is JS whitespace. -/
def isJsWs (c : Char) : Bool := decide (c.toNat ∈ jsWsCodes)

/-- The JS `String.prototype.trim`: drop whitespace from both ends. -/
def trimWs (l : List Char) : List Char :=
  ((l.dropWhile isJsWs).reverse.dropWhile isJsWs).reverse

/-- Whether a character lies in the combining diacritical marks block
`U+0300 - U+036F` targeted by the `replace(/[̀-ͯ]/g, "")` of
`normalizeText`. -/
def isCombiningMark (c : Char) : Bool := decide (0x300 ≤ c.toNat ∧ c.toNat ≤ 0x36F)

/-- Removal of the combining diacritical marks. -/
def stripMarks (l : List Char) : List Char := l.filter fun c => !isCombiningMark c

/-- The normalizer `normalizeText` of `src/utils/tokenizerEngine.ts`:
lower-case, canonical decomposition, mark stripping, trim.  The runtime
Unicode table functions `toLowerCase` and `normalize("NFD")` are passed in
as `lower` and `nfd`. -/
def normalizeText (lower nfd : List Char → List Char) (text : List Char) : List Char :=
  trimWs (stripMarks (nfd (lower text)))

section Tokenize

variable {α : Type} [LinearOrderedField α]

/-- The lattice record returned inside a `TokenizerResult`
(`FSTGraphData` of `src/types.ts`, modelled from the spec data model). -/
structure FSTGraphData (α : Type) where
  nodes : List Nat
  edges : List (TokenEdge α)
  text : List Char
deriving DecidableEq

/-- The result of a tokenization call (`TokenizerResult` of `src/types.ts`,
modelled from the spec data model). -/
structure TokenizerResult (α : Type) where
  graph : FSTGraphData α
  selectedPath : List (List Char)
  tokens : List (List Char)
deriving DecidableEq

/-- Token extraction from the selected path: each id is looked up in the
edge list and its label taken, with the empty string for a missing edge
(the JS `edges.find(e => e.id === id)?.label || ''`). -/
def tokensOf (edges : List (TokenEdge α)) (selectedPath : List (List Char)) :
    List (List Char) :=
  selectedPath.map fun i =>
    ((edges.find? fun e => decide (e.id = i)).map (·.label)).getD []

/-- The main entry point `tokenize` of `src/utils/tokenizerEngine.ts`. -/
def tokenize (exp log : α → α) (lower nfd : List Char → List Char)
    (inputText : List Char) (algo : AlgorithmType) (normalize : Bool)
    (customVocab : Option (List (VocabItem α))) : TokenizerResult α :=
  let processedText := if normalize then normalizeText lower nfd inputText else inputText
  let lattice := buildLattice exp log processedText algo customVocab
  let edges := lattice.1
  let selectedPath :=
    if algo = AlgorithmType.UNIGRAM then viterbiDecode edges processedText.length
    else greedyDecode edges processedText.length
  { graph := ⟨lattice.2, edges, processedText⟩
    selectedPath := selectedPath
    tokens := tokensOf edges selectedPath }

end Tokenize

/-! ### Decimal rendering: basic properties -/

theorem natDigitsCore_congr : ∀ (f₁ f₂ n : Nat), n < f₁ → n < f₂ →
    natDigitsCore f₁ n = natDigitsCore f₂ n := by
  intro f₁
  induction f₁ with
  | zero => intro f₂ n h _; omega
  | succ f ih =>
    intro f₂ n h₁ h₂
    cases f₂ with
    | zero => omega
    | succ g =>
      show natDigitsCore (f + 1) n = natDigitsCore (g + 1) n
      by_cases hn : n < 10
      · simp [natDigitsCore, hn]
      · have hd : n / 10 < n := Nat.div_lt_self (by omega) (by omega)
        have l1 : natDigitsCore (f + 1) n =
            natDigitsCore f (n / 10) ++ [Nat.digitChar (n % 10)] := by
          simp [natDigitsCore, hn]
        have l2 : natDigitsCore (g + 1) n =
            natDigitsCore g (n / 10) ++ [Nat.digitChar (n % 10)] := by
          simp [natDigitsCore, hn]
        rw [l1, l2, ih g (n / 10) (by omega) (by omega)]

theorem natDigits_unfold (n : Nat) : natDigits n =
    if n < 10 then [Nat.digitChar n]
    else natDigits (n / 10) ++ [Nat.digitChar (n % 10)] := by
  by_cases hn : n < 10
  · simp only [hn, if_true]
    show natDigitsCore (n + 1) n = _
    simp [natDigitsCore, hn]
  · simp only [hn, if_false]
    show natDigitsCore (n + 1) n = natDigitsCore (n / 10 + 1) (n / 10) ++ _
    have hd : n / 10 < n := Nat.div_lt_self (by omega) (by omega)
    have l1 : natDigitsCore (n + 1) n =
        natDigitsCore n (n / 10) ++ [Nat.digitChar (n % 10)] := by
      simp [natDigitsCore, hn]
    rw [l1, natDigitsCore_congr n (n / 10 + 1) (n / 10) (by omega) (by omega)]

/-- Numeric value read back from a digit list (decimal). -/
def digitsVal (l : List Char) : Nat := l.foldl (fun a c => 10 * a + (c.toNat - 48)) 0

theorem digitChar_toNat : ∀ d : Nat, d < 10 → (Nat.digitChar d).toNat = 48 + d := by
  intro d h
  interval_cases d <;> rfl

theorem digitChar_ne_dash : ∀ d : Nat, d < 10 → Nat.digitChar d ≠ '-' := by
  intro d h
  interval_cases d <;> decide

theorem digitsVal_aux (l : List Char) (a : Nat) :
    l.foldl (fun a c => 10 * a + (c.toNat - 48)) a =
    a * 10 ^ l.length + digitsVal l := by
  induction l generalizing a with
  | nil => simp [digitsVal]
  | cons c t ih =>
    simp only [List.foldl_cons]
    rw [ih]
    have h2 : digitsVal (c :: t) = (c.toNat - 48) * 10 ^ t.length + digitsVal t := by
      unfold digitsVal
      simp only [List.foldl_cons]
      rw [ih]
      simp [digitsVal]
    rw [List.length_cons, h2, pow_succ]
    ring

theorem digitsVal_append_digit (l : List Char) (c : Char) :
    digitsVal (l ++ [c]) = 10 * digitsVal l + (c.toNat - 48) := by
  unfold digitsVal
  rw [List.foldl_append]
  rfl

theorem digitsVal_natDigits : ∀ n : Nat, digitsVal (natDigits n) = n := by
  intro n
  induction n using Nat.strong_induction_on with
  | _ n ih =>
    rw [natDigits_unfold]
    by_cases hn : n < 10
    · simp only [hn, if_true]
      show digitsVal ([] ++ [Nat.digitChar n]) = n
      rw [digitsVal_append_digit]
      simp [digitsVal, digitChar_toNat n hn]
    · simp only [hn, if_false]
      rw [digitsVal_append_digit]
      have hd : n / 10 < n := Nat.div_lt_self (by omega) (by omega)
      rw [ih (n / 10) hd]
      rw [digitChar_toNat (n % 10) (Nat.mod_lt n (by omega))]
      omega

theorem natDigits_inj {m n : Nat} (h : natDigits m = natDigits n) : m = n := by
  have := digitsVal_natDigits m
  rw [h, digitsVal_natDigits] at this
  omega

theorem natDigits_ne_dash : ∀ n : Nat, ∀ c ∈ natDigits n, c ≠ '-' := by
  intro n
  induction n using Nat.strong_induction_on with
  | _ n ih =>
    rw [natDigits_unfold]
    by_cases hn : n < 10
    · simp only [hn, if_true]
      intro c hc
      simp only [List.mem_singleton] at hc
      subst hc
      exact digitChar_ne_dash n hn
    · simp only [hn, if_false]
      intro c hc
      rcases List.mem_append.mp hc with h1 | h2
      · exact ih (n / 10) (Nat.div_lt_self (by omega) (by omega)) c h1
      · simp only [List.mem_singleton] at h2
        subst h2
        exact digitChar_ne_dash (n % 10) (Nat.mod_lt n (by omega))

/-- Splitting a concatenation at the first dash: if neither left part
contains a dash, equal concatenations have equal parts. -/
theorem dash_split : ∀ (a₁ : List Char) {a₂ r₁ r₂ : List Char},
    (∀ c ∈ a₁, c ≠ '-') → (∀ c ∈ a₂, c ≠ '-') →
    a₁ ++ '-' :: r₁ = a₂ ++ '-' :: r₂ → a₁ = a₂ ∧ r₁ = r₂ := by
  intro a₁
  induction a₁ with
  | nil =>
    intro a₂ r₁ r₂ _ h₂ h
    cases a₂ with
    | nil => simpa using h
    | cons x t =>
      simp only [List.nil_append, List.cons_append, List.cons.injEq] at h
      exact absurd h.1.symm (h₂ x (by simp))
  | cons x t ih =>
    intro a₂ r₁ r₂ h₁ h₂ h
    cases a₂ with
    | nil =>
      simp only [List.cons_append, List.nil_append, List.cons.injEq] at h
      exact absurd h.1 (h₁ x (by simp))
    | cons y s =>
      simp only [List.cons_append, List.cons.injEq] at h
      obtain ⟨hxy, hrest⟩ := h
      obtain ⟨hts, hr⟩ := ih (fun c hc => h₁ c (by simp [hc]))
        (fun c hc => h₂ c (by simp [hc])) hrest
      exact ⟨by rw [hxy, hts], hr⟩

/-! ### Lattice structure lemmas -/

section LatticeLemmas

variable {α : Type} [LinearOrderedField α]
variable (log : α → α) (algo : AlgorithmType) (vocab : List (VocabItem α))
variable (uniProbs bpeRanks : List (List Char × α)) (text : List Char)

/-- Characterization of membership in the matched-edge list for position `i`. -/
theorem mem_matchedEdges {i : Nat} {e : TokenEdge α} :
    e ∈ matchedEdges log algo vocab uniProbs bpeRanks text i ↔
    ∃ j ∈ List.range' (i + 1) (min text.length (i + 20) - i), ∃ v,
      findMatch vocab algo text i j = some v ∧
      e = mkMatchEdge log algo uniProbs bpeRanks text i j v := by
  unfold matchedEdges
  constructor
  · intro h
    obtain ⟨j, hj, hsome⟩ := List.mem_filterMap.mp h
    cases hv : findMatch vocab algo text i j with
    | none => rw [hv] at hsome; simp at hsome
    | some v =>
      rw [hv] at hsome
      simp only [Option.map_some', Option.some.injEq] at hsome
      exact ⟨j, hj, v, hv, hsome.symm⟩
  · rintro ⟨j, hj, v, hv, he⟩
    exact List.mem_filterMap.mpr ⟨j, hj, by rw [hv, he]; rfl⟩

/-- Characterization of membership in the per-position edge list. -/
theorem mem_edgesAt {i : Nat} {e : TokenEdge α} :
    e ∈ edgesAt log algo vocab uniProbs bpeRanks text i ↔
    ((e ∈ matchedEdges log algo vocab uniProbs bpeRanks text i) ∨
     (matchedEdges log algo vocab uniProbs bpeRanks text i = [] ∧
      e = fallbackEdge text i)) := by
  unfold edgesAt
  by_cases hm : matchedEdges log algo vocab uniProbs bpeRanks text i = []
  · rw [if_pos hm]
    simp only [List.mem_singleton]
    constructor
    · intro h
      exact Or.inr ⟨hm, h⟩
    · rintro (h | ⟨_, he⟩)
      · rw [hm] at h
        exact absurd h (List.not_mem_nil _)
      · exact he
  · rw [if_neg hm]
    constructor
    · intro h
      exact Or.inl h
    · rintro (h | ⟨hnil, _⟩)
      · exact h
      · exact absurd hnil hm

/-- Every per-position edge list is nonempty. -/
theorem edgesAt_ne_nil (i : Nat) :
    edgesAt log algo vocab uniProbs bpeRanks text i ≠ [] := by
  unfold edgesAt
  by_cases hm : matchedEdges log algo vocab uniProbs bpeRanks text i = []
  · rw [if_pos hm]
    simp
  · rw [if_neg hm]
    exact hm

/-- Every edge produced at position `i < text.length` starts at `i`, moves
strictly forward, and stays inside the text. -/
theorem edgesAt_bounds {i : Nat} (hi : i < text.length) {e : TokenEdge α}
    (he : e ∈ edgesAt log algo vocab uniProbs bpeRanks text i) :
    e.efrom = i ∧ i < e.eto ∧ e.eto ≤ text.length := by
  rcases (mem_edgesAt log algo vocab uniProbs bpeRanks text).mp he with h | ⟨_, he'⟩
  · obtain ⟨j, hj, v, _, he'⟩ :=
      (mem_matchedEdges log algo vocab uniProbs bpeRanks text).mp h
    subst he'
    obtain ⟨t, ht, hjt⟩ := List.mem_range'.mp hj
    subst hjt
    refine ⟨rfl, ?_, ?_⟩ <;> simp only [mkMatchEdge] <;> omega
  · subst he'
    refine ⟨rfl, ?_, ?_⟩ <;> simp only [fallbackEdge] <;> omega

/-- Membership in the edge list of the built lattice. -/
theorem mem_buildLattice {exp : α → α} {cv : Option (List (VocabItem α))}
    {e : TokenEdge α} :
    e ∈ (buildLattice exp log text algo cv).1 ↔
    ∃ i < text.length,
      e ∈ edgesAt log algo (vocabOf cv) (uniProbsOf exp cv) (bpeRanksOf cv) text i := by
  unfold buildLattice
  simp only [List.mem_flatMap, List.mem_range]

/-- Every lattice edge moves strictly forward and stays inside the text. -/
theorem lattice_fwd {exp : α → α} {cv : Option (List (VocabItem α))}
    {e : TokenEdge α} (he : e ∈ (buildLattice exp log text algo cv).1) :
    e.efrom < e.eto ∧ e.eto ≤ text.length := by
  obtain ⟨i, hi, hmem⟩ := (mem_buildLattice log algo text).mp he
  obtain ⟨h1, h2, h3⟩ := edgesAt_bounds log algo _ _ _ text hi hmem
  omega

/-- Every position of the text has an outgoing lattice edge. -/
theorem lattice_cov {exp : α → α} {cv : Option (List (VocabItem α))}
    {i : Nat} (hi : i < text.length) :
    ∃ e ∈ (buildLattice exp log text algo cv).1, e.efrom = i := by
  have hne := edgesAt_ne_nil log algo (vocabOf cv) (uniProbsOf exp cv)
    (bpeRanksOf cv) text i
  obtain ⟨e, he⟩ := List.exists_mem_of_ne_nil _ hne
  refine ⟨e, (mem_buildLattice log algo text).mpr ⟨i, hi, he⟩, ?_⟩
  exact (edgesAt_bounds log algo _ _ _ text hi he).1

end LatticeLemmas

/-! ### Edge-id uniqueness -/

theorem strL_dash : strL "-" = ['-'] := rfl

theorem strL_dashFallback : strL "-fallback-" = '-' :: strL "fallback-" := rfl

section IdLemmas

variable {α : Type} [LinearOrderedField α]
variable (log : α → α) (algo : AlgorithmType) (vocab : List (VocabItem α))
variable (uniProbs bpeRanks : List (List Char × α)) (text : List Char)

theorem mkMatchEdge_id (i j : Nat) (v : VocabItem α) :
    (mkMatchEdge log algo uniProbs bpeRanks text i j v).id =
    strL "edge-" ++ (natDigits i ++ '-' :: (natDigits j ++ '-' :: v.token)) := by
  simp [mkMatchEdge, strL_dash, List.append_assoc]

theorem fallbackEdge_id (i : Nat) :
    (fallbackEdge (α := α) text i).id =
    strL "edge-" ++ (natDigits i ++ '-' ::
      (natDigits (i + 1) ++ '-' :: (strL "fallback-" ++ (text.drop i).take 1))) := by
  simp [fallbackEdge, strL_dash, strL_dashFallback, List.append_assoc]

/-- Every edge emitted at position `i` carries an id of the shape
`edge-` followed by the decimal digits of `i` and a dash. -/
theorem edgesAt_id_shape {i : Nat} {e : TokenEdge α}
    (he : e ∈ edgesAt log algo vocab uniProbs bpeRanks text i) :
    ∃ r, e.id = strL "edge-" ++ (natDigits i ++ '-' :: r) := by
  rcases (mem_edgesAt log algo vocab uniProbs bpeRanks text).mp he with h | ⟨_, he'⟩
  · obtain ⟨j, _, v, _, he'⟩ :=
      (mem_matchedEdges log algo vocab uniProbs bpeRanks text).mp h
    subst he'
    exact ⟨_, mkMatchEdge_id log algo uniProbs bpeRanks text i j v⟩
  · subst he'
    exact ⟨_, fallbackEdge_id text i⟩

/-- Two per-position edges with the same id sit at the same position. -/
theorem edgesAt_id_pos {i₁ i₂ : Nat} {e₁ e₂ : TokenEdge α}
    (h₁ : e₁ ∈ edgesAt log algo vocab uniProbs bpeRanks text i₁)
    (h₂ : e₂ ∈ edgesAt log algo vocab uniProbs bpeRanks text i₂)
    (hid : e₁.id = e₂.id) : i₁ = i₂ := by
  obtain ⟨r₁, hr₁⟩ := edgesAt_id_shape log algo vocab uniProbs bpeRanks text h₁
  obtain ⟨r₂, hr₂⟩ := edgesAt_id_shape log algo vocab uniProbs bpeRanks text h₂
  rw [hr₁, hr₂] at hid
  have hcancel := List.append_cancel_left hid
  have := dash_split (natDigits i₁) (natDigits_ne_dash i₁) (natDigits_ne_dash i₂) hcancel
  exact natDigits_inj this.1

/-- Within one position, edges are identified by their id. -/
theorem edgesAt_id_inj {i : Nat} {e₁ e₂ : TokenEdge α}
    (h₁ : e₁ ∈ edgesAt log algo vocab uniProbs bpeRanks text i)
    (h₂ : e₂ ∈ edgesAt log algo vocab uniProbs bpeRanks text i)
    (hid : e₁.id = e₂.id) : e₁ = e₂ := by
  rcases (mem_edgesAt log algo vocab uniProbs bpeRanks text).mp h₁ with hm₁ | ⟨hnil₁, he₁⟩
  · rcases (mem_edgesAt log algo vocab uniProbs bpeRanks text).mp h₂ with hm₂ | ⟨hnil₂, he₂⟩
    · obtain ⟨j₁, _, v₁, hv₁, hq₁⟩ :=
        (mem_matchedEdges log algo vocab uniProbs bpeRanks text).mp hm₁
      obtain ⟨j₂, _, v₂, hv₂, hq₂⟩ :=
        (mem_matchedEdges log algo vocab uniProbs bpeRanks text).mp hm₂
      subst hq₁; subst hq₂
      rw [mkMatchEdge_id, mkMatchEdge_id] at hid
      have hcancel := List.append_cancel_left hid
      have hsplit := dash_split (natDigits i) (natDigits_ne_dash i)
        (natDigits_ne_dash i) hcancel
      have hsplit2 := dash_split (natDigits j₁) (natDigits_ne_dash j₁)
        (natDigits_ne_dash j₂) hsplit.2
      have hj : j₁ = j₂ := natDigits_inj hsplit2.1
      subst hj
      rw [hv₁] at hv₂
      have hv : v₁ = v₂ := Option.some.inj hv₂
      rw [hv]
    · exfalso
      rw [hnil₂] at hm₁
      exact absurd hm₁ (List.not_mem_nil _)
  · rcases (mem_edgesAt log algo vocab uniProbs bpeRanks text).mp h₂ with hm₂ | ⟨hnil₂, he₂⟩
    · exfalso
      rw [hnil₁] at hm₂
      exact absurd hm₂ (List.not_mem_nil _)
    · rw [he₁, he₂]

/-- Edge ids are unique across the whole built lattice. -/
theorem lattice_id_inj {exp : α → α} {cv : Option (List (VocabItem α))}
    {e₁ e₂ : TokenEdge α}
    (h₁ : e₁ ∈ (buildLattice exp log text algo cv).1)
    (h₂ : e₂ ∈ (buildLattice exp log text algo cv).1)
    (hid : e₁.id = e₂.id) : e₁ = e₂ := by
  obtain ⟨i₁, _, hm₁⟩ := (mem_buildLattice log algo text).mp h₁
  obtain ⟨i₂, _, hm₂⟩ := (mem_buildLattice log algo text).mp h₂
  have hi : i₁ = i₂ := edgesAt_id_pos log algo _ _ _ text hm₁ hm₂ hid
  subst hi
  exact edgesAt_id_inj log algo _ _ _ text hm₁ hm₂ hid

end IdLemmas

/-- In a list with unique ids, looking up a member edge by its id finds it. -/
theorem find_id_self {α : Type} [LinearOrderedField α] :
    ∀ (E : List (TokenEdge α)),
    (∀ a ∈ E, ∀ b ∈ E, a.id = b.id → a = b) →
    ∀ e ∈ E, (E.find? fun x => decide (x.id = e.id)) = some e := by
  intro E
  induction E with
  | nil => intro _ e he; exact absurd he (List.not_mem_nil _)
  | cons a t ih =>
    intro huniq e he
    by_cases hai : a.id = e.id
    · rw [List.find?_cons_of_pos _ (by simpa using hai)]
      exact congrArg some (huniq a (by simp) e he hai)
    · rw [List.find?_cons_of_neg _ (by simpa using hai)]
      have hne : e ≠ a := fun h => hai (by rw [h])
      have het : e ∈ t := by
        rcases List.mem_cons.mp he with h | h
        · exact absurd h hne
        · exact h
      exact ih (fun x hx y hy => huniq x (by simp [hx]) y (by simp [hy])) e het

/-! ### Paths and coverage (specification-side definitions) -/

section PathDefs

variable {α : Type} [LinearOrderedField α]

/-- Whether an edge list is a connected walk from node `a` to node `b`:
each edge starts where the previous one ended. -/
def walkEnds : List (TokenEdge α) → Nat → Nat → Prop
  | [], a, b => a = b
  | e :: p, a, b => e.efrom = a ∧ walkEnds p e.eto b

/-- Boolean version of `walkEnds`. -/
def walkEndsB : List (TokenEdge α) → Nat → Nat → Bool
  | [], a, b => decide (a = b)
  | e :: p, a, b => decide (e.efrom = a) && walkEndsB p e.eto b

theorem walkEnds_iff_walkEndsB :
    ∀ (p : List (TokenEdge α)) (a b : Nat), walkEnds p a b ↔ walkEndsB p a b = true := by
  intro p
  induction p with
  | nil => intro a b; simp [walkEnds, walkEndsB]
  | cons e t ih =>
    intro a b
    simp [walkEnds, walkEndsB, ih e.eto b]

instance walkEnds.instDecidable (p : List (TokenEdge α)) (a b : Nat) :
    Decidable (walkEnds p a b) :=
  decidable_of_iff _ (walkEnds_iff_walkEndsB p a b).symm

/-- Sum of edge scores along a path. -/
def pathCost (p : List (TokenEdge α)) : α := (p.map (·.score)).sum

/-- Resolution of a list of edge ids against an edge list, first match per
id (the JS `edges.find(e => e.id === id)`). -/
def resolvePath (E : List (TokenEdge α)) (ids : List (List Char)) :
    List (TokenEdge α) :=
  ids.filterMap fun i => E.find? fun e => decide (e.id = i)

/-- The character offsets spanned by an edge. -/
def spanOffsets (e : TokenEdge α) : List Nat := List.range' e.efrom (e.eto - e.efrom)

theorem walkEnds_append_single (p : List (TokenEdge α)) (e : TokenEdge α) :
    ∀ a b, walkEnds (p ++ [e]) a b ↔ walkEnds p a e.efrom ∧ e.eto = b := by
  induction p with
  | nil =>
    intro a b
    constructor
    · rintro ⟨h1, h2⟩
      exact ⟨h1.symm, h2⟩
    · rintro ⟨h1, h2⟩
      exact ⟨h1.symm, h2⟩
  | cons f t ih =>
    intro a b
    show f.efrom = a ∧ walkEnds (t ++ [e]) f.eto b ↔
      (f.efrom = a ∧ walkEnds t f.eto e.efrom) ∧ e.eto = b
    rw [ih f.eto b]
    tauto

theorem walkEnds_trans {p₁ p₂ : List (TokenEdge α)} :
    ∀ {a m b}, walkEnds p₁ a m → walkEnds p₂ m b → walkEnds (p₁ ++ p₂) a b := by
  induction p₁ with
  | nil =>
    intro a m b h1 h2
    cases h1
    exact h2
  | cons e t ih =>
    intro a m b h1 h2
    exact ⟨h1.1, ih h1.2 h2⟩

theorem walkEnds_bounds {p : List (TokenEdge α)}
    (hfwd : ∀ e ∈ p, e.efrom < e.eto) :
    ∀ {a b}, walkEnds p a b → a ≤ b ∧ ∀ e ∈ p, a ≤ e.efrom ∧ e.eto ≤ b := by
  induction p with
  | nil =>
    intro a b h
    cases h
    exact ⟨le_refl _, by simp⟩
  | cons e t ih =>
    intro a b h
    obtain ⟨h1, h2⟩ := h
    have hfwd' : ∀ f ∈ t, f.efrom < f.eto := fun f hf => hfwd f (by simp [hf])
    obtain ⟨hle, hall⟩ := ih hfwd' h2
    have he : e.efrom < e.eto := hfwd e (by simp)
    refine ⟨by omega, ?_⟩
    intro f hf
    rcases List.mem_cons.mp hf with h | h
    · subst h
      omega
    · have := hall f h
      omega

/-- A forward walk from `a` to `b` covers the offsets `[a, b)` exactly, in
order, with no gaps and no overlaps. -/
theorem walkEnds_coverage {p : List (TokenEdge α)}
    (hfwd : ∀ e ∈ p, e.efrom < e.eto) :
    ∀ {a b}, walkEnds p a b →
    (p.map spanOffsets).flatten = List.range' a (b - a) := by
  induction p with
  | nil =>
    intro a b h
    cases h
    simp
  | cons e t ih =>
    intro a b h
    obtain ⟨h1, h2⟩ := h
    have hfwd' : ∀ f ∈ t, f.efrom < f.eto := fun f hf => hfwd f (by simp [hf])
    have he : e.efrom < e.eto := hfwd e (by simp)
    have hbd := walkEnds_bounds hfwd' h2
    simp only [List.map_cons, List.flatten_cons]
    rw [ih hfwd' h2]
    subst h1
    show spanOffsets e ++ List.range' e.eto (b - e.eto) = List.range' e.efrom (b - e.efrom)
    unfold spanOffsets
    have hr := List.range'_append e.efrom (e.eto - e.efrom) (b - e.eto) 1
    have h1' : e.efrom + 1 * (e.eto - e.efrom) = e.eto := by omega
    have h2' : b - e.eto + (e.eto - e.efrom) = b - e.efrom := by omega
    rw [h1', h2'] at hr
    exact hr

theorem pathCost_append (p q : List (TokenEdge α)) :
    pathCost (p ++ q) = pathCost p + pathCost q := by
  unfold pathCost
  rw [List.map_append, List.sum_append]

/-- Resolving the ids of a path of unique-id edges recovers the path. -/
theorem resolvePath_map_id {E : List (TokenEdge α)}
    (huniq : ∀ a ∈ E, ∀ b ∈ E, a.id = b.id → a = b) :
    ∀ (p : List (TokenEdge α)), (∀ e ∈ p, e ∈ E) →
    resolvePath E (p.map (·.id)) = p := by
  intro p
  induction p with
  | nil => intro _; rfl
  | cons e t ih =>
    intro hp
    show List.filterMap _ (e.id :: t.map (·.id)) = e :: t
    rw [List.filterMap_cons]
    rw [find_id_self E huniq e (hp e (by simp))]
    rw [show List.filterMap _ (t.map (·.id)) = resolvePath E (t.map (·.id)) from rfl]
    rw [ih (fun f hf => hp f (by simp [hf]))]

end PathDefs

/-! ### Greedy decoder lemmas -/

section GreedyLemmas

variable {α : Type} [LinearOrderedField α]

theorem mem_insertBySpan {e a : TokenEdge α} :
    ∀ {l : List (TokenEdge α)}, a ∈ insertBySpan e l ↔ a = e ∨ a ∈ l := by
  intro l
  induction l with
  | nil => simp [insertBySpan]
  | cons c cs ih =>
    unfold insertBySpan
    by_cases h : spanInt c > spanInt e
    · rw [if_pos h, List.mem_cons, List.mem_cons, ih]
      tauto
    · rw [if_neg h, List.mem_cons, List.mem_cons]

theorem mem_sortCandidates {a : TokenEdge α} :
    ∀ {l : List (TokenEdge α)}, a ∈ sortCandidates l ↔ a ∈ l := by
  intro l
  induction l with
  | nil => simp [sortCandidates]
  | cons c cs ih =>
    show a ∈ insertBySpan c (sortCandidates cs) ↔ _
    rw [mem_insertBySpan, List.mem_cons]
    rw [ih]

theorem insertBySpan_ne_nil (e : TokenEdge α) (l : List (TokenEdge α)) :
    insertBySpan e l ≠ [] := by
  cases l with
  | nil => simp [insertBySpan]
  | cons c cs =>
    unfold insertBySpan
    by_cases h : spanInt c > spanInt e
    · rw [if_pos h]; simp
    · rw [if_neg h]; simp

theorem sortCandidates_eq_nil {l : List (TokenEdge α)} :
    sortCandidates l = [] ↔ l = [] := by
  cases l with
  | nil => simp [sortCandidates]
  | cons c cs =>
    constructor
    · intro h
      exact absurd h (insertBySpan_ne_nil c (sortCandidates cs))
    · intro h
      exact absurd h (by simp)

/-- The edge the spec-side greedy step chooses: the first edge of maximal
span in the candidate list (the JS stable sort head). -/
def chooseGreedy (l : List (TokenEdge α)) : Option (TokenEdge α) :=
  match l with
  | [] => none
  | c :: cs => some (cs.foldl (fun b e => if spanInt b < spanInt e then e else b) c)

theorem foldl_firstMax_assoc :
    ∀ (cs : List (TokenEdge α)) (x c : TokenEdge α),
    cs.foldl (fun b e => if spanInt b < spanInt e then e else b)
      (if spanInt x < spanInt c then c else x) =
    (if spanInt x <
        spanInt (cs.foldl (fun b e => if spanInt b < spanInt e then e else b) c) then
      cs.foldl (fun b e => if spanInt b < spanInt e then e else b) c
     else x) := by
  intro cs
  induction cs with
  | nil =>
    intro x c
    rfl
  | cons d ds ih =>
    intro x c
    simp only [List.foldl_cons]
    rw [ih (if spanInt x < spanInt c then c else x) d]
    rw [ih c d]
    by_cases h1 : spanInt c <
        spanInt (ds.foldl (fun b e => if spanInt b < spanInt e then e else b) d)
    · simp only [if_pos h1]
      by_cases h2 : spanInt x < spanInt c
      · simp only [if_pos h2]
        have h3 : spanInt x <
            spanInt (ds.foldl (fun b e => if spanInt b < spanInt e then e else b) d) := by
          omega
        simp only [if_pos h1, if_pos h3]
      · simp only [if_neg h2]
    · simp only [if_neg h1]
      by_cases h2 : spanInt x < spanInt c
      · simp only [if_pos h2, if_neg h1]
      · simp only [if_neg h2]
        have h3 : ¬ spanInt x <
            spanInt (ds.foldl (fun b e => if spanInt b < spanInt e then e else b) d) := by
          omega
        simp only [if_neg h3]

theorem head?_insertBySpan_cons (x h : TokenEdge α) (t : List (TokenEdge α)) :
    (insertBySpan x (h :: t)).head? = some (if spanInt h > spanInt x then h else x) := by
  unfold insertBySpan
  by_cases hc : spanInt h > spanInt x
  · rw [if_pos hc, if_pos hc]
    rfl
  · rw [if_neg hc, if_neg hc]
    rfl

theorem sortCandidates_head? :
    ∀ (l : List (TokenEdge α)), (sortCandidates l).head? = chooseGreedy l := by
  intro l
  induction l with
  | nil => rfl
  | cons x l ih =>
    show (insertBySpan x (sortCandidates l)).head? = _
    cases l with
    | nil => rfl
    | cons y m =>
      have hne : sortCandidates (y :: m) ≠ [] := fun hh => by
        simpa using sortCandidates_eq_nil.mp hh
      cases hs : sortCandidates (y :: m) with
      | nil => exact absurd hs hne
      | cons h t =>
        rw [hs] at ih
        have hh : h = m.foldl (fun b e => if spanInt b < spanInt e then e else b) y := by
          simp only [chooseGreedy, List.head?_cons] at ih
          exact Option.some.inj ih
        rw [head?_insertBySpan_cons]
        show _ = chooseGreedy (x :: y :: m)
        simp only [chooseGreedy, List.foldl_cons]
        rw [foldl_firstMax_assoc m x y, ← hh]

theorem foldl_firstMax_spec :
    ∀ (cs : List (TokenEdge α)) (c : TokenEdge α),
    (∃ l₁ l₂, c :: cs = l₁ ++
        (cs.foldl (fun b e => if spanInt b < spanInt e then e else b) c) :: l₂ ∧
      ∀ f ∈ l₁, spanInt f <
        spanInt (cs.foldl (fun b e => if spanInt b < spanInt e then e else b) c)) ∧
    ∀ f ∈ c :: cs, spanInt f ≤
      spanInt (cs.foldl (fun b e => if spanInt b < spanInt e then e else b) c) := by
  intro cs
  induction cs with
  | nil =>
    intro c
    refine ⟨⟨[], [], rfl, by simp⟩, ?_⟩
    intro f hf
    simp only [List.mem_singleton] at hf
    subst hf
    exact le_refl _
  | cons d ds ih =>
    intro c
    simp only [List.foldl_cons]
    rw [show (if spanInt c < spanInt d then d else c) =
        (if spanInt c < spanInt d then d else c) from rfl]
    rw [foldl_firstMax_assoc ds c d]
    obtain ⟨⟨l₁, l₂, hdec, hfront⟩, hall⟩ := ih d
    by_cases hc : spanInt c <
        spanInt (ds.foldl (fun b e => if spanInt b < spanInt e then e else b) d)
    · simp only [if_pos hc]
      refine ⟨⟨c :: l₁, l₂, by rw [List.cons_append, ← hdec], ?_⟩, ?_⟩
      · intro f hf
        rcases List.mem_cons.mp hf with h' | h'
        · subst h'; exact hc
        · exact hfront f h'
      · intro f hf
        rcases List.mem_cons.mp hf with h' | h'
        · subst h'; omega
        · exact hall f h'
    · simp only [if_neg hc]
      refine ⟨⟨[], d :: ds, rfl, by simp⟩, ?_⟩
      intro f hf
      rcases List.mem_cons.mp hf with h' | h'
      · subst h'
        exact le_refl _
      · have := hall f h'
        omega

/-- The chosen edge is a first maximum: it splits the candidate list into a
strictly-smaller-span front part, itself, and a tail, and no candidate has a
larger span. -/
theorem chooseGreedy_spec {l : List (TokenEdge α)} {e : TokenEdge α}
    (h : chooseGreedy l = some e) :
    (∃ l₁ l₂, l = l₁ ++ e :: l₂ ∧ ∀ c ∈ l₁, spanInt c < spanInt e) ∧
    ∀ c ∈ l, spanInt c ≤ spanInt e := by
  match l with
  | [] => exact absurd h (by simp [chooseGreedy])
  | c :: cs =>
    simp only [chooseGreedy, Option.some.injEq] at h
    have := foldl_firstMax_spec cs c
    rw [h] at this
    exact this

theorem chooseGreedy_mem {l : List (TokenEdge α)} {e : TokenEdge α}
    (h : chooseGreedy l = some e) : e ∈ l := by
  obtain ⟨⟨l₁, l₂, hdec, _⟩, _⟩ := chooseGreedy_spec h
  rw [hdec]
  simp

theorem chooseGreedy_eq_none {l : List (TokenEdge α)} :
    chooseGreedy l = none ↔ l = [] := by
  cases l with
  | nil => simp [chooseGreedy]
  | cons c cs => simp [chooseGreedy]

end GreedyLemmas

/-! ### Greedy decoder: spec decoder and path production -/

section GreedyDecodeLemmas

variable {α : Type} [LinearOrderedField α]

/-- Modelled from the spec: the greedy decoder exactly as the spec words it
(gather all outgoing edges of the current node, choose the edge with the
largest span with the first-encountered edge winning ties, advance to its
end, stop on a dead end returning the partial path). -/
def greedySpecGo (edges : List (TokenEdge α)) (length : Nat) :
    Nat → Nat → List (List Char)
  | 0, _ => []
  | fuel + 1, current =>
    if current < length then
      match chooseGreedy (edges.filter fun e => decide (e.efrom = current)) with
      | none => []
      | some best => best.id :: greedySpecGo edges length fuel best.eto
    else []

/-- Modelled from the spec: the full spec-side greedy decoder. -/
def greedySpecDecode (edges : List (TokenEdge α)) (length : Nat) : List (List Char) :=
  greedySpecGo edges length (length + 1) 0

theorem greedyGo_eq_specGo (edges : List (TokenEdge α)) (length : Nat) :
    ∀ fuel current,
    greedyGo edges length fuel current = greedySpecGo edges length fuel current := by
  intro fuel
  induction fuel with
  | zero => intro current; rfl
  | succ f ih =>
    intro current
    simp only [greedyGo, greedySpecGo]
    by_cases hcur : current < length
    · rw [if_pos hcur, if_pos hcur]
      rw [← sortCandidates_head? (edges.filter fun e => decide (e.efrom = current))]
      cases hs : sortCandidates (edges.filter fun e => decide (e.efrom = current)) with
      | nil => rfl
      | cons best rest =>
        simp only [List.head?_cons]
        rw [ih best.eto]
    · rw [if_neg hcur, if_neg hcur]

theorem greedyDecode_eq_spec (edges : List (TokenEdge α)) (length : Nat) :
    greedyDecode edges length = greedySpecDecode edges length :=
  greedyGo_eq_specGo edges length (length + 1) 0

/-- Under the lattice invariants, the greedy loop produces the ids of a
connected walk from the current node to the sink. -/
theorem greedyGo_path {edges : List (TokenEdge α)} {n : Nat}
    (hfwd : ∀ e ∈ edges, e.efrom < e.eto ∧ e.eto ≤ n)
    (hcov : ∀ i, i < n → ∃ e ∈ edges, e.efrom = i) :
    ∀ fuel current, current ≤ n → n - current < fuel →
    ∃ p, (∀ e ∈ p, e ∈ edges) ∧ walkEnds p current n ∧
      greedyGo edges n fuel current = p.map (·.id) := by
  intro fuel
  induction fuel with
  | zero => intro current _ h; omega
  | succ f ih =>
    intro current hle hfuel
    by_cases hcur : current < n
    · obtain ⟨e₀, he₀, hfrom₀⟩ := hcov current hcur
      have hcand : e₀ ∈ edges.filter fun e => decide (e.efrom = current) :=
        List.mem_filter.mpr ⟨he₀, by simp [hfrom₀]⟩
      have hne : sortCandidates (edges.filter fun e => decide (e.efrom = current)) ≠ [] := by
        intro hnil
        rw [sortCandidates_eq_nil] at hnil
        rw [hnil] at hcand
        exact absurd hcand (List.not_mem_nil _)
      cases hs : sortCandidates (edges.filter fun e => decide (e.efrom = current)) with
      | nil => exact absurd hs hne
      | cons best rest =>
        have hbmem : best ∈ edges.filter fun e => decide (e.efrom = current) := by
          have : best ∈ sortCandidates (edges.filter fun e => decide (e.efrom = current)) := by
            rw [hs]; simp
          exact mem_sortCandidates.mp this
        obtain ⟨hbE, hbfrom'⟩ := List.mem_filter.mp hbmem
        have hbfrom : best.efrom = current := by simpa using hbfrom'
        obtain ⟨hlt, hleN⟩ := hfwd best hbE
        obtain ⟨p', hp'E, hp'walk, hp'eq⟩ := ih best.eto hleN (by omega)
        refine ⟨best :: p', ?_, ⟨hbfrom, hp'walk⟩, ?_⟩
        · intro e he
          rcases List.mem_cons.mp he with h | h
          · subst h; exact hbE
          · exact hp'E e h
        · simp only [greedyGo]
          rw [if_pos hcur, hs]
          simp only [List.map_cons]
          rw [hp'eq]
    · have hceq : current = n := by omega
      refine ⟨[], by simp, hceq, ?_⟩
      simp only [greedyGo]
      rw [if_neg hcur]
      rfl

end GreedyDecodeLemmas

/-! ### Viterbi decoder lemmas -/

section ViterbiLemmas

variable {α : Type} [LinearOrderedField α]

theorem getD_set_self {β : Type} {l : List β} {i : Nat} (h : i < l.length)
    (a d : β) : (l.set i a).getD i d = a := by
  rw [List.getD_eq_getElem?_getD, List.getElem?_set_self h]
  rfl

theorem getD_set_ne {β : Type} {l : List β} {i j : Nat} (h : i ≠ j)
    (a d : β) : (l.set i a).getD j d = l.getD j d := by
  rw [List.getD_eq_getElem?_getD, List.getElem?_set_ne h, ← List.getD_eq_getElem?_getD]

/-- Order on optional costs with `none` as `Infinity` (the top element). -/
def costLE (a b : Option α) : Prop :=
  match b with
  | none => True
  | some cb => ∃ ca, a = some ca ∧ ca ≤ cb

theorem costLE_refl (a : Option α) : costLE a a := by
  cases a with
  | none => trivial
  | some c => exact ⟨c, rfl, le_refl c⟩

theorem costLE_trans {a b c : Option α} (h1 : costLE a b) (h2 : costLE b c) :
    costLE a c := by
  cases c with
  | none => trivial
  | some cc =>
    obtain ⟨cb, hb, hbc⟩ := h2
    subst hb
    obtain ⟨ca, ha, hab⟩ := h1
    exact ⟨ca, ha, le_trans hab hbc⟩

theorem relaxStep_of_none {mc : List (VNode α)} {i : Nat} (e : TokenEdge α)
    (h : (mc.getD i (vDefault α)).cost = none) : relaxStep mc i e = mc := by
  unfold relaxStep
  rw [h]

theorem relaxStep_of_some {mc : List (VNode α)} {i : Nat} {ci : α}
    (e : TokenEdge α) (h : (mc.getD i (vDefault α)).cost = some ci) :
    relaxStep mc i e =
      if improves (ci + e.score) ((mc.getD e.eto (vDefault α)).cost)
      then mc.set e.eto ⟨some (ci + e.score), some e.id, (i : Int)⟩
      else mc := by
  unfold relaxStep
  rw [h]

theorem relaxStep_length (mc : List (VNode α)) (i : Nat) (e : TokenEdge α) :
    (relaxStep mc i e).length = mc.length := by
  cases hci : (mc.getD i (vDefault α)).cost with
  | none => rw [relaxStep_of_none e hci]
  | some ci =>
    rw [relaxStep_of_some e hci]
    by_cases hb : improves (ci + e.score) ((mc.getD e.eto (vDefault α)).cost) = true
    · rw [if_pos hb, List.length_set]
    · rw [if_neg hb]

/-- Entries other than the target of the relaxed edge are untouched. -/
theorem relaxStep_getD_ne {mc : List (VNode α)} {i : Nat} {e : TokenEdge α}
    {v : Nat} (hv : v ≠ e.eto) :
    (relaxStep mc i e).getD v (vDefault α) = mc.getD v (vDefault α) := by
  cases hci : (mc.getD i (vDefault α)).cost with
  | none => rw [relaxStep_of_none e hci]
  | some ci =>
    rw [relaxStep_of_some e hci]
    by_cases hb : improves (ci + e.score) ((mc.getD e.eto (vDefault α)).cost) = true
    · rw [if_pos hb]
      exact getD_set_ne (fun h => hv h.symm) _ _
    · rw [if_neg hb]

/-- A single relaxation either leaves an entry unchanged or replaces the
target entry with the freshly relaxed record. -/
theorem relaxStep_cases (mc : List (VNode α)) (i : Nat) (e : TokenEdge α)
    (v : Nat) :
    (relaxStep mc i e).getD v (vDefault α) = mc.getD v (vDefault α) ∨
    (v = e.eto ∧ ∃ ci, (mc.getD i (vDefault α)).cost = some ci ∧
      (relaxStep mc i e).getD v (vDefault α) =
        ⟨some (ci + e.score), some e.id, (i : Int)⟩) := by
  by_cases hv : v = e.eto
  · subst hv
    cases hci : (mc.getD i (vDefault α)).cost with
    | none => exact Or.inl (by rw [relaxStep_of_none e hci])
    | some ci =>
      rw [relaxStep_of_some e hci]
      by_cases hb : improves (ci + e.score) ((mc.getD e.eto (vDefault α)).cost) = true
      · rw [if_pos hb]
        by_cases hvlen : e.eto < mc.length
        · exact Or.inr ⟨rfl, ci, rfl, getD_set_self hvlen _ _⟩
        · rw [List.set_eq_of_length_le (by omega)]
          exact Or.inl rfl
      · rw [if_neg hb]
        exact Or.inl rfl
  · exact Or.inl (relaxStep_getD_ne hv)

/-- Relaxation never increases the cost of any entry. -/
theorem relaxStep_mono (mc : List (VNode α)) (i : Nat) (e : TokenEdge α)
    (v : Nat) :
    costLE ((relaxStep mc i e).getD v (vDefault α)).cost
      ((mc.getD v (vDefault α)).cost) := by
  by_cases hv : v = e.eto
  · subst hv
    cases hci : (mc.getD i (vDefault α)).cost with
    | none =>
      rw [relaxStep_of_none e hci]
      exact costLE_refl _
    | some ci =>
      rw [relaxStep_of_some e hci]
      cases hct : (mc.getD e.eto (vDefault α)).cost with
      | none => trivial
      | some ct =>
        by_cases hb : ci + e.score < ct
        · rw [if_pos (by simp [improves, hb])]
          by_cases hvlen : e.eto < mc.length
          · rw [getD_set_self hvlen]
            exact ⟨ci + e.score, rfl, le_of_lt hb⟩
          · rw [List.set_eq_of_length_le (by omega), hct]
            exact ⟨ct, rfl, le_refl ct⟩
        · rw [if_neg (by simp [improves, hb]), hct]
          exact ⟨ct, rfl, le_refl ct⟩
  · rw [relaxStep_getD_ne hv]
    exact costLE_refl _

/-- After relaxing an edge whose source cost is `ci`, the target cost is at
most `ci + score`, provided the target index is in range. -/
theorem relaxStep_le_new {mc : List (VNode α)} {i : Nat} {e : TokenEdge α}
    {ci : α} (hci : (mc.getD i (vDefault α)).cost = some ci)
    (hlen : e.eto < mc.length) :
    costLE ((relaxStep mc i e).getD e.eto (vDefault α)).cost
      (some (ci + e.score)) := by
  rw [relaxStep_of_some e hci]
  cases hct : (mc.getD e.eto (vDefault α)).cost with
  | none =>
    rw [if_pos (by simp [improves])]
    rw [getD_set_self hlen]
    exact ⟨ci + e.score, rfl, le_refl _⟩
  | some ct =>
    by_cases hb : ci + e.score < ct
    · rw [if_pos (by simp [improves, hb]), getD_set_self hlen]
      exact ⟨ci + e.score, rfl, le_refl _⟩
    · rw [if_neg (by simp [improves, hb]), hct]
      exact ⟨ct, rfl, le_of_not_lt hb⟩

end ViterbiLemmas

section ViterbiTableLemmas

variable {α : Type} [LinearOrderedField α]

theorem relaxAt_of_none {E : List (TokenEdge α)} {mc : List (VNode α)} {i : Nat}
    (h : (mc.getD i (vDefault α)).cost = none) : relaxAt E mc i = mc := by
  unfold relaxAt
  rw [h]

theorem relaxAt_of_some {E : List (TokenEdge α)} {mc : List (VNode α)} {i : Nat}
    {c : α} (h : (mc.getD i (vDefault α)).cost = some c) :
    relaxAt E mc i =
      (E.filter fun e => decide (e.efrom = i)).foldl (fun m e => relaxStep m i e) mc := by
  unfold relaxAt
  rw [h]

theorem foldRelax_length {i : Nat} :
    ∀ (l : List (TokenEdge α)) (mc : List (VNode α)),
    (l.foldl (fun m e => relaxStep m i e) mc).length = mc.length := by
  intro l
  induction l with
  | nil => intro mc; rfl
  | cons e t ih =>
    intro mc
    rw [List.foldl_cons, ih, relaxStep_length]

theorem foldRelax_mono {i : Nat} :
    ∀ (l : List (TokenEdge α)) (mc : List (VNode α)) (v : Nat),
    costLE ((l.foldl (fun m e => relaxStep m i e) mc).getD v (vDefault α)).cost
      ((mc.getD v (vDefault α)).cost) := by
  intro l
  induction l with
  | nil => intro mc v; exact costLE_refl _
  | cons e t ih =>
    intro mc v
    rw [List.foldl_cons]
    exact costLE_trans (ih (relaxStep mc i e) v) (relaxStep_mono mc i e v)

theorem foldRelax_preserve {i : Nat} :
    ∀ (l : List (TokenEdge α)) (mc : List (VNode α)) (v : Nat),
    (∀ e ∈ l, v ≠ e.eto) →
    (l.foldl (fun m e => relaxStep m i e) mc).getD v (vDefault α) =
      mc.getD v (vDefault α) := by
  intro l
  induction l with
  | nil => intro mc v _; rfl
  | cons e t ih =>
    intro mc v hv
    rw [List.foldl_cons]
    rw [ih (relaxStep mc i e) v (fun f hf => hv f (by simp [hf]))]
    exact relaxStep_getD_ne (hv e (by simp))

theorem foldRelax_guarantee {i : Nat} :
    ∀ (l : List (TokenEdge α)) (mc : List (VNode α)) {ci : α},
    (mc.getD i (vDefault α)).cost = some ci →
    (∀ e ∈ l, e.eto ≠ i) →
    ∀ e₀ ∈ l, e₀.eto < mc.length →
    costLE ((l.foldl (fun m e => relaxStep m i e) mc).getD e₀.eto (vDefault α)).cost
      (some (ci + e₀.score)) := by
  intro l
  induction l with
  | nil => intro mc ci _ _ e₀ h; exact absurd h (List.not_mem_nil _)
  | cons e t ih =>
    intro mc ci hci hne e₀ he₀ hlen
    rw [List.foldl_cons]
    rcases List.mem_cons.mp he₀ with h | h
    · subst h
      have h1 : costLE ((relaxStep mc i e₀).getD e₀.eto (vDefault α)).cost
          (some (ci + e₀.score)) := relaxStep_le_new hci hlen
      exact costLE_trans (foldRelax_mono t (relaxStep mc i e₀) e₀.eto) h1
    · have hci' : ((relaxStep mc i e).getD i (vDefault α)).cost = some ci := by
        rw [relaxStep_getD_ne (fun hh => (hne e (by simp)) hh.symm)]
        exact hci
      have hlen' : e₀.eto < (relaxStep mc i e).length := by
        rw [relaxStep_length]
        exact hlen
      exact ih (relaxStep mc i e) hci' (fun f hf => hne f (by simp [hf])) e₀ h hlen'

theorem relaxAt_length (E : List (TokenEdge α)) (mc : List (VNode α)) (i : Nat) :
    (relaxAt E mc i).length = mc.length := by
  cases hci : (mc.getD i (vDefault α)).cost with
  | none => rw [relaxAt_of_none hci]
  | some c =>
    rw [relaxAt_of_some hci]
    exact foldRelax_length _ mc

theorem relaxAt_mono (E : List (TokenEdge α)) (mc : List (VNode α)) (i v : Nat) :
    costLE ((relaxAt E mc i).getD v (vDefault α)).cost
      ((mc.getD v (vDefault α)).cost) := by
  cases hci : (mc.getD i (vDefault α)).cost with
  | none => rw [relaxAt_of_none hci]; exact costLE_refl _
  | some c =>
    rw [relaxAt_of_some hci]
    exact foldRelax_mono _ mc v

theorem relaxAt_preserve {E : List (TokenEdge α)} {mc : List (VNode α)} {i : Nat}
    (hfwd : ∀ e ∈ E, e.efrom < e.eto) {v : Nat} (hv : v ≤ i) :
    (relaxAt E mc i).getD v (vDefault α) = mc.getD v (vDefault α) := by
  cases hci : (mc.getD i (vDefault α)).cost with
  | none => rw [relaxAt_of_none hci]
  | some c =>
    rw [relaxAt_of_some hci]
    refine foldRelax_preserve _ mc v ?_
    intro e he
    obtain ⟨heE, hef⟩ := List.mem_filter.mp he
    have : e.efrom = i := by simpa using hef
    have := hfwd e heE
    omega

theorem relaxAt_guarantee {E : List (TokenEdge α)} {mc : List (VNode α)} {i : Nat}
    (hfwd : ∀ e ∈ E, e.efrom < e.eto) {ci : α}
    (hci : (mc.getD i (vDefault α)).cost = some ci)
    {e₀ : TokenEdge α} (he₀ : e₀ ∈ E) (hef : e₀.efrom = i)
    (hlen : e₀.eto < mc.length) :
    costLE ((relaxAt E mc i).getD e₀.eto (vDefault α)).cost
      (some (ci + e₀.score)) := by
  rw [relaxAt_of_some hci]
  refine foldRelax_guarantee _ mc hci ?_ e₀ ?_ hlen
  · intro e he
    obtain ⟨heE, hef'⟩ := List.mem_filter.mp he
    have : e.efrom = i := by simpa using hef'
    have := hfwd e heE
    omega
  · exact List.mem_filter.mpr ⟨he₀, by simp [hef]⟩

/-- The Viterbi table after processing nodes `0 .. k-1`. -/
def vtab (E : List (TokenEdge α)) (n k : Nat) : List (VNode α) :=
  (List.range k).foldl (relaxAt E) (vInit n)

theorem viterbiTable_eq_vtab (E : List (TokenEdge α)) (n : Nat) :
    viterbiTable E n = vtab E n n := rfl

theorem vtab_succ (E : List (TokenEdge α)) (n k : Nat) :
    vtab E n (k + 1) = relaxAt E (vtab E n k) k := by
  unfold vtab
  rw [List.range_succ, List.foldl_append]
  rfl

theorem vInit_length (n : Nat) : (vInit (α := α) n).length = n + 1 := by
  unfold vInit
  rw [List.length_set, List.length_replicate]

theorem vtab_length (E : List (TokenEdge α)) (n k : Nat) :
    (vtab E n k).length = n + 1 := by
  induction k with
  | zero => exact vInit_length n
  | succ k ih =>
    rw [vtab_succ, relaxAt_length]
    exact ih

theorem getD_replicate {β : Type} (m i : Nat) (d : β) :
    (List.replicate m d).getD i d = d := by
  rw [List.getD_eq_getElem?_getD, List.getElem?_replicate]
  by_cases h : i < m
  · rw [if_pos h]
    rfl
  · rw [if_neg h]
    rfl

theorem vInit_getD_zero (n : Nat) :
    (vInit (α := α) n).getD 0 (vDefault α) = ⟨some 0, none, -1⟩ := by
  unfold vInit
  exact getD_set_self (by rw [List.length_replicate]; omega) _ _

theorem vInit_getD_ne (n : Nat) {v : Nat} (hv : v ≠ 0) :
    (vInit (α := α) n).getD v (vDefault α) = vDefault α := by
  unfold vInit
  rw [getD_set_ne (fun h => hv h.symm)]
  exact getD_replicate _ _ _

theorem vtab_freeze {E : List (TokenEdge α)} {n : Nat}
    (hfwd : ∀ e ∈ E, e.efrom < e.eto) {v k₁ : Nat} (hv : v ≤ k₁) :
    ∀ {k₂}, k₁ ≤ k₂ →
    (vtab E n k₂).getD v (vDefault α) = (vtab E n k₁).getD v (vDefault α) := by
  intro k₂
  induction k₂ with
  | zero =>
    intro h
    have : k₁ = 0 := by omega
    rw [this]
  | succ k ih =>
    intro h
    by_cases hk : k₁ = k + 1
    · rw [hk]
    · have hle : k₁ ≤ k := by omega
      rw [vtab_succ]
      rw [relaxAt_preserve hfwd (by omega)]
      exact ih hle

theorem vtab_getD_zero {E : List (TokenEdge α)} {n : Nat}
    (hfwd : ∀ e ∈ E, e.efrom < e.eto) (k : Nat) :
    (vtab E n k).getD 0 (vDefault α) = ⟨some 0, none, -1⟩ := by
  rw [vtab_freeze hfwd (le_refl 0) (Nat.zero_le k)]
  exact vInit_getD_zero n

theorem vtab_mono_le {E : List (TokenEdge α)} {n : Nat} {k₁ k₂ : Nat}
    (h : k₁ ≤ k₂) (v : Nat) :
    costLE ((vtab E n k₂).getD v (vDefault α)).cost
      ((vtab E n k₁).getD v (vDefault α)).cost := by
  induction k₂ with
  | zero =>
    have : k₁ = 0 := by omega
    rw [this]
    exact costLE_refl _
  | succ k ih =>
    by_cases hk : k₁ = k + 1
    · rw [hk]
      exact costLE_refl _
    · have hle : k₁ ≤ k := by omega
      rw [vtab_succ]
      exact costLE_trans (relaxAt_mono E (vtab E n k) k v) (ih hle)

end ViterbiTableLemmas

section ViterbiSoundOpt

variable {α : Type} [LinearOrderedField α]

/-- Soundness of a Viterbi table: every finite-cost entry is either the
start node at cost `0`, or records an edge of the lattice (with source
processed before round `k`) whose relaxation produced exactly this cost
from the recorded predecessor. -/
def vSound (E : List (TokenEdge α)) (mc : List (VNode α)) (k : Nat) : Prop :=
  ∀ v c, (mc.getD v (vDefault α)).cost = some c →
    (v = 0 ∧ c = 0 ∧ (mc.getD v (vDefault α)).edgeId = none) ∨
    (∃ e ∈ E, e.efrom < k ∧ e.eto = v ∧
      (mc.getD v (vDefault α)).edgeId = some e.id ∧
      (mc.getD v (vDefault α)).prevNode = (e.efrom : Int) ∧
      ∃ ci, (mc.getD e.efrom (vDefault α)).cost = some ci ∧ c = ci + e.score)

theorem vSound_mono {E : List (TokenEdge α)} {mc : List (VNode α)} {k k' : Nat}
    (h : vSound E mc k) (hk : k ≤ k') : vSound E mc k' := by
  intro v c hc
  rcases h v c hc with h' | ⟨e, he, hek, rest⟩
  · exact Or.inl h'
  · exact Or.inr ⟨e, he, by omega, rest⟩

theorem vSound_init (E : List (TokenEdge α)) (n : Nat) :
    vSound E (vInit (α := α) n) 0 := by
  intro v c hc
  by_cases hv : v = 0
  · subst hv
    rw [vInit_getD_zero] at hc ⊢
    exact Or.inl ⟨rfl, by injection hc with h; exact h.symm, rfl⟩
  · rw [vInit_getD_ne n hv] at hc
    exact absurd hc (by simp [vDefault])

theorem foldRelax_sound {E : List (TokenEdge α)} {k : Nat} :
    ∀ (l : List (TokenEdge α)) (mc : List (VNode α)),
    (∀ e ∈ l, e ∈ E ∧ e.efrom = k ∧ k < e.eto) →
    vSound E mc (k + 1) →
    vSound E (l.foldl (fun m e => relaxStep m k e) mc) (k + 1) := by
  intro l
  induction l with
  | nil => intro mc _ hs; exact hs
  | cons e t ih =>
    intro mc hl hs
    rw [List.foldl_cons]
    obtain ⟨heE, hek, hkto⟩ := hl e (by simp)
    refine ih (relaxStep mc k e) (fun f hf => hl f (by simp [hf])) ?_
    intro v c hc
    rcases relaxStep_cases mc k e v with hunch | ⟨hv, ci, hci, hnew⟩
    · rw [hunch] at hc ⊢
      rcases hs v c hc with h' | ⟨e', he', hk', hto', hid', hprev', ci', hci', hc'⟩
      · exact Or.inl h'
      · refine Or.inr ⟨e', he', hk', hto', hid', hprev', ci', ?_, hc'⟩
        rw [relaxStep_getD_ne (show e'.efrom ≠ e.eto by omega)]
        exact hci'
    · subst hv
      rw [hnew] at hc ⊢
      refine Or.inr ⟨e, heE, by omega, rfl, rfl, by rw [hek], ci, ?_, ?_⟩
      · rw [hek]
        rw [relaxStep_getD_ne (show k ≠ e.eto by omega)]
        exact hci
      · injection hc with h
        exact h.symm

theorem vtab_sound {E : List (TokenEdge α)} {n : Nat}
    (hfwd : ∀ e ∈ E, e.efrom < e.eto) :
    ∀ k, vSound E (vtab E n k) k := by
  intro k
  induction k with
  | zero => exact vSound_init E n
  | succ k ih =>
    rw [vtab_succ]
    cases hck : ((vtab E n k).getD k (vDefault α)).cost with
    | none =>
      rw [relaxAt_of_none hck]
      exact vSound_mono ih (by omega)
    | some ck =>
      rw [relaxAt_of_some hck]
      refine foldRelax_sound _ _ ?_ (vSound_mono ih (by omega))
      intro e he
      obtain ⟨heE, hef⟩ := List.mem_filter.mp he
      have hefrom : e.efrom = k := by simpa using hef
      have := hfwd e heE
      exact ⟨heE, hefrom, by omega⟩

/-- Optimality of the table after `k` rounds: every walk from the source
whose edges all start at already-processed nodes bounds the stored cost. -/
theorem vtab_opt {E : List (TokenEdge α)} {n : Nat}
    (hfwd : ∀ e ∈ E, e.efrom < e.eto ∧ e.eto ≤ n) :
    ∀ k v (p : List (TokenEdge α)), (∀ e ∈ p, e ∈ E) → walkEnds p 0 v →
    (∀ e ∈ p, e.efrom < k) →
    ∃ c, ((vtab E n k).getD v (vDefault α)).cost = some c ∧ c ≤ pathCost p := by
  have hfwd' : ∀ e ∈ E, e.efrom < e.eto := fun e he => (hfwd e he).1
  intro k
  induction k with
  | zero =>
    intro v p hmem hwalk hlt
    cases p with
    | nil =>
      cases hwalk
      rw [show vtab E n 0 = vInit n from rfl, vInit_getD_zero]
      exact ⟨0, rfl, by simp [pathCost]⟩
    | cons e t =>
      have := hlt e (by simp)
      omega
  | succ k ih =>
    intro v p hmem hwalk hlt
    rcases List.eq_nil_or_concat p with hnil | ⟨L, e, hconcat⟩
    · subst hnil
      cases hwalk
      rw [vtab_getD_zero hfwd']
      exact ⟨0, rfl, by simp [pathCost]⟩
    · rw [List.concat_eq_append] at hconcat
      subst hconcat
      obtain ⟨hwalkL, heto⟩ := (walkEnds_append_single L e 0 v).mp hwalk
      have hmemL : ∀ f ∈ L, f ∈ E := fun f hf => hmem f (by simp [hf])
      have hmemE : e ∈ E := hmem e (by simp)
      have hfwdL : ∀ f ∈ L, f.efrom < f.eto := fun f hf => hfwd' f (hmemL f hf)
      have hboundL := walkEnds_bounds hfwdL hwalkL
      have hLlt : ∀ f ∈ L, f.efrom < e.efrom := by
        intro f hf
        have h1 := (hboundL.2 f hf).2
        have h2 := hfwdL f hf
        omega
      have hcost : pathCost (L ++ [e]) = pathCost L + e.score := by
        rw [pathCost_append]
        simp [pathCost]
      by_cases he : e.efrom < k
      · have hall : ∀ f ∈ L ++ [e], f.efrom < k := by
          intro f hf
          rcases List.mem_append.mp hf with h | h
          · have := hLlt f h
            omega
          · simp only [List.mem_singleton] at h
            subst h
            exact he
        obtain ⟨c, hc, hcle⟩ := ih v (L ++ [e]) hmem hwalk hall
        have hm := vtab_mono_le (show k ≤ k + 1 by omega) (E := E) (n := n) v
        rw [hc] at hm
        obtain ⟨c', hc', hle'⟩ := hm
        exact ⟨c', hc', le_trans hle' hcle⟩
      · have hek : e.efrom = k := by
          have := hlt e (by simp)
          omega
        obtain ⟨ck, hck, hckle⟩ := ih e.efrom L hmemL hwalkL
          (fun f hf => by have := hLlt f hf; omega)
        rw [hek] at hck
        have hguar := relaxAt_guarantee hfwd' hck hmemE hek
          (by rw [vtab_length]; have := (hfwd e hmemE).2; omega)
        rw [← vtab_succ] at hguar
        rw [heto] at hguar
        obtain ⟨c', hc', hle'⟩ := hguar
        refine ⟨c', hc', ?_⟩
        rw [hcost]
        exact le_trans hle' (add_le_add_right hckle e.score)

end ViterbiSoundOpt

section ViterbiMain

variable {α : Type} [LinearOrderedField α]

/-- Backtracking from a finite-cost node reconstructs (in forward order) a
walk from the source realizing exactly that cost. -/
theorem vBacktrack_spec {E : List (TokenEdge α)} {n : Nat}
    (hfwd : ∀ e ∈ E, e.efrom < e.eto ∧ e.eto ≤ n) :
    ∀ v, v ≤ n → ∀ c,
    ((viterbiTable E n).getD v (vDefault α)).cost = some c →
    ∃ p, (∀ e ∈ p, e ∈ E) ∧ walkEnds p 0 v ∧ pathCost p = c ∧
      ∀ fuel acc, v < fuel →
        vBacktrack (viterbiTable E n) fuel (v : Int) acc = p.map (·.id) ++ acc := by
  have hfwd' : ∀ e ∈ E, e.efrom < e.eto := fun e he => (hfwd e he).1
  have hsound : vSound E (viterbiTable E n) n := by
    rw [viterbiTable_eq_vtab]
    exact vtab_sound hfwd' n
  intro v
  induction v using Nat.strong_induction_on with
  | _ v ih =>
    intro hv c hc
    rcases hsound v c hc with ⟨hv0, hc0, hid0⟩ | ⟨e, heE, _, heto, hid, hprev, ci, hci, hcsum⟩
    · subst hv0
      refine ⟨[], by simp, rfl, by simp [pathCost, hc0], ?_⟩
      intro fuel acc hfuel
      cases fuel with
      | zero => omega
      | succ f =>
        simp only [vBacktrack]
        rw [if_neg (by simp)]
        simp
    · have hvpos : 0 < v := by
        have := hfwd e heE
        omega
      have hef : e.efrom < v := by
        have := hfwd' e heE
        omega
      obtain ⟨p', hp'E, hp'walk, hp'cost, hp'bt⟩ := ih e.efrom hef (by omega) ci hci
      refine ⟨p' ++ [e], ?_, ?_, ?_, ?_⟩
      · intro f hf
        rcases List.mem_append.mp hf with h | h
        · exact hp'E f h
        · simp only [List.mem_singleton] at h
          subst h
          exact heE
      · exact (walkEnds_append_single p' e 0 v).mpr ⟨hp'walk, heto⟩
      · rw [pathCost_append, hp'cost]
        simp only [pathCost, List.map_cons, List.map_nil, List.sum_cons, List.sum_nil]
        rw [hcsum]
        ring
      · intro fuel acc hfuel
        cases fuel with
        | zero => omega
        | succ f =>
          simp only [vBacktrack]
          rw [if_pos (by exact_mod_cast hvpos)]
          rw [show ((v : Int)).toNat = v from by simp]
          rw [hid, hprev]
          show vBacktrack (viterbiTable E n) f ((e.efrom : Nat) : Int) (e.id :: acc) =
            List.map (fun x => x.id) (p' ++ [e]) ++ acc
          rw [hp'bt f (e.id :: acc) (by omega)]
          rw [List.map_append]
          simp

/-- From every node a walk to the sink exists (chaining outgoing edges). -/
theorem exists_walk_to_sink {E : List (TokenEdge α)} {n : Nat}
    (hfwd : ∀ e ∈ E, e.efrom < e.eto ∧ e.eto ≤ n)
    (hcov : ∀ i, i < n → ∃ e ∈ E, e.efrom = i) :
    ∀ d v, v ≤ n → n - v ≤ d → ∃ p, (∀ e ∈ p, e ∈ E) ∧ walkEnds p v n := by
  intro d
  induction d with
  | zero =>
    intro v hv hd
    have : v = n := by omega
    exact ⟨[], by simp, this⟩
  | succ d ih =>
    intro v hv hd
    by_cases hvn : v < n
    · obtain ⟨e, heE, hef⟩ := hcov v hvn
      obtain ⟨hlt, hle⟩ := hfwd e heE
      obtain ⟨p', hp'E, hp'walk⟩ := ih e.eto hle (by omega)
      refine ⟨e :: p', ?_, hef, hp'walk⟩
      intro f hf
      rcases List.mem_cons.mp hf with h | h
      · subst h; exact heE
      · exact hp'E f h
    · have : v = n := by omega
      exact ⟨[], by simp, this⟩

/-- Full correctness of the Viterbi decoder on a forward, fully covering
edge list: the decoded id list is the id sequence of a walk from node `0`
to the sink whose cost is minimal among all such walks. -/
theorem viterbiDecode_opt {E : List (TokenEdge α)} {n : Nat}
    (hfwd : ∀ e ∈ E, e.efrom < e.eto ∧ e.eto ≤ n)
    (hcov : ∀ i, i < n → ∃ e ∈ E, e.efrom = i) :
    ∃ p, (∀ e ∈ p, e ∈ E) ∧ walkEnds p 0 n ∧
      viterbiDecode E n = p.map (·.id) ∧
      ∀ q, (∀ e ∈ q, e ∈ E) → walkEnds q 0 n → pathCost p ≤ pathCost q := by
  obtain ⟨q₀, hq₀E, hq₀walk⟩ :=
    exists_walk_to_sink hfwd hcov n 0 (Nat.zero_le n) (by omega)
  have hfroms : ∀ e ∈ q₀, e.efrom < n := by
    intro e he
    have := hfwd e (hq₀E e he)
    omega
  obtain ⟨c, hc, _⟩ := vtab_opt hfwd n n q₀ hq₀E hq₀walk hfroms
  rw [← viterbiTable_eq_vtab] at hc
  obtain ⟨p, hpE, hpwalk, hpcost, hpbt⟩ := vBacktrack_spec hfwd n (le_refl n) c hc
  refine ⟨p, hpE, hpwalk, ?_, ?_⟩
  · unfold viterbiDecode
    rw [hpbt (n + 1) [] (by omega)]
    simp
  · intro q hqE hqwalk
    have hqfroms : ∀ e ∈ q, e.efrom < n := by
      intro e he
      have := hfwd e (hqE e he)
      omega
    obtain ⟨c', hc', hle'⟩ := vtab_opt hfwd n n q hqE hqwalk hqfroms
    rw [← viterbiTable_eq_vtab, hc] at hc'
    have : c = c' := Option.some.inj hc'
    rw [hpcost, this]
    exact hle'

end ViterbiMain

/-! ### Bridging lemmas at the tokenize level -/

section TokenizeBridge

variable {α : Type} [LinearOrderedField α]

theorem tokensOf_map_id {E : List (TokenEdge α)}
    (huniq : ∀ a ∈ E, ∀ b ∈ E, a.id = b.id → a = b) :
    ∀ (p : List (TokenEdge α)), (∀ e ∈ p, e ∈ E) →
    tokensOf E (p.map (·.id)) = p.map (·.label) := by
  intro p
  induction p with
  | nil => intro _; rfl
  | cons e t ih =>
    intro hp
    show List.map _ (e.id :: t.map (·.id)) = e.label :: t.map (·.label)
    rw [List.map_cons]
    rw [find_id_self E huniq e (hp e (by simp))]
    have : List.map (fun i =>
        ((E.find? fun e => decide (e.id = i)).map (·.label)).getD [])
        (t.map (·.id)) = tokensOf E (t.map (·.id)) := rfl
    rw [this, ih (fun f hf => hp f (by simp [hf]))]
    rfl

theorem buildLattice_hfwd (exp log : α → α) (text : List Char)
    (algo : AlgorithmType) (cv : Option (List (VocabItem α))) :
    ∀ e ∈ (buildLattice exp log text algo cv).1,
      e.efrom < e.eto ∧ e.eto ≤ text.length :=
  fun _ he => lattice_fwd log algo text he

theorem buildLattice_hcov (exp log : α → α) (text : List Char)
    (algo : AlgorithmType) (cv : Option (List (VocabItem α))) :
    ∀ i, i < text.length →
      ∃ e ∈ (buildLattice exp log text algo cv).1, e.efrom = i :=
  fun _ hi => lattice_cov log algo text hi

theorem buildLattice_huniq (exp log : α → α) (text : List Char)
    (algo : AlgorithmType) (cv : Option (List (VocabItem α))) :
    ∀ a ∈ (buildLattice exp log text algo cv).1,
    ∀ b ∈ (buildLattice exp log text algo cv).1, a.id = b.id → a = b :=
  fun _ ha _ hb hab => lattice_id_inj log algo text ha hb hab

/-- The selected path of any tokenization resolves to a connected walk of
lattice edges from node `0` to node `len(text)`. -/
theorem tokenize_selected_walk (exp log : α → α)
    (lower nfd : List Char → List Char) (t : List Char) (algo : AlgorithmType)
    (norm : Bool) (cv : Option (List (VocabItem α))) :
    ∃ p, (∀ e ∈ p, e ∈ (tokenize exp log lower nfd t algo norm cv).graph.edges) ∧
      walkEnds p 0 (tokenize exp log lower nfd t algo norm cv).graph.text.length ∧
      (tokenize exp log lower nfd t algo norm cv).selectedPath = p.map (·.id) ∧
      resolvePath (tokenize exp log lower nfd t algo norm cv).graph.edges
        (tokenize exp log lower nfd t algo norm cv).selectedPath = p ∧
      (tokenize exp log lower nfd t algo norm cv).tokens = p.map (·.label) := by
  set txt := if norm then normalizeText lower nfd t else t with htxt
  have hedges : (tokenize exp log lower nfd t algo norm cv).graph.edges =
      (buildLattice exp log txt algo cv).1 := rfl
  have htext : (tokenize exp log lower nfd t algo norm cv).graph.text = txt := rfl
  have hfwd := buildLattice_hfwd exp log txt algo cv
  have hcov := buildLattice_hcov exp log txt algo cv
  have huniq := buildLattice_huniq exp log txt algo cv
  by_cases halgo : algo = AlgorithmType.UNIGRAM
  · have hsel : (tokenize exp log lower nfd t algo norm cv).selectedPath =
        viterbiDecode (buildLattice exp log txt algo cv).1 txt.length := by
      show (if algo = AlgorithmType.UNIGRAM then _ else _) = _
      rw [if_pos halgo]
    obtain ⟨p, hpE, hpwalk, hpdec, _⟩ := viterbiDecode_opt hfwd hcov
    refine ⟨p, ?_, ?_, ?_, ?_, ?_⟩
    · rw [hedges]; exact hpE
    · rw [htext]; exact hpwalk
    · rw [hsel, hpdec]
    · rw [hedges, hsel, hpdec]
      exact resolvePath_map_id huniq p hpE
    · show tokensOf (buildLattice exp log txt algo cv).1
        (tokenize exp log lower nfd t algo norm cv).selectedPath = _
      rw [hsel, hpdec]
      exact tokensOf_map_id huniq p hpE
  · have hsel : (tokenize exp log lower nfd t algo norm cv).selectedPath =
        greedyDecode (buildLattice exp log txt algo cv).1 txt.length := by
      show (if algo = AlgorithmType.UNIGRAM then _ else _) = _
      rw [if_neg halgo]
    obtain ⟨p, hpE, hpwalk, hpdec⟩ := greedyGo_path hfwd hcov (txt.length + 1) 0
      (Nat.zero_le _) (by omega)
    refine ⟨p, ?_, ?_, ?_, ?_, ?_⟩
    · rw [hedges]; exact hpE
    · rw [htext]; exact hpwalk
    · rw [hsel]; exact hpdec
    · rw [hedges, hsel]
      show resolvePath _ (greedyGo _ _ (txt.length + 1) 0) = p
      rw [hpdec]
      exact resolvePath_map_id huniq p hpE
    · show tokensOf (buildLattice exp log txt algo cv).1
        (tokenize exp log lower nfd t algo norm cv).selectedPath = _
      rw [hsel]
      show tokensOf _ (greedyGo _ _ (txt.length + 1) 0) = _
      rw [hpdec]
      exact tokensOf_map_id huniq p hpE

end TokenizeBridge

/-! ### Tracing (tokenizeWithTrace) -/

/-- One row of a Viterbi cost-table snapshot (the objects produced by
`minCost.map((m, idx) => ({node: idx, cost, edgeId, prev}))`). -/
structure VSnap (α : Type) where
  node : Nat
  cost : Option α
  edgeId : Option (List Char)
  prev : Int
deriving DecidableEq

/-- An inspection frame (`StepFrame` of `src/types.ts`, modelled from the
spec and the construction sites in `tokenizeWithTrace`).  The JS field
`partialPath` is named `pathSoFar` here. -/
structure StepFrame (α : Type) where
  id : List Char
  description : List Char
  candidates : List (List Char)
  chosen : Option (List Char)
  pathSoFar : List (List Char)
  viterbiSnapshot : Option (List (VSnap α))
deriving DecidableEq

section Traced

variable {α : Type} [LinearOrderedField α]

/-- The cost-table snapshot embedded into Viterbi frames. -/
def vSnapshot (mc : List (VNode α)) : List (VSnap α) :=
  mc.enum.map fun p => ⟨p.1, p.2.cost, p.2.edgeId, p.2.prevNode⟩

/-- The frame pushed before relaxing the outgoing edges of node `i`. -/
def vConsiderFrame (i : Nat) (outgoing : List (TokenEdge α))
    (mc : List (VNode α)) : StepFrame α :=
  { id := strL "frame-consider-" ++ natDigits i
    description := strL "Considering outgoing edges from node " ++ natDigits i
    candidates := outgoing.map (·.id)
    chosen := none
    pathSoFar := []
    viterbiSnapshot := some (vSnapshot mc) }

/-- The frame pushed after an improving cost update. -/
def vUpdateFrame (i : Nat) (edge : TokenEdge α) (mc : List (VNode α)) :
    StepFrame α :=
  { id := strL "frame-update-" ++ natDigits i ++ strL "-" ++ natDigits edge.eto
    description := strL "Update cost for node " ++ natDigits edge.eto ++
      strL " via " ++ edge.id
    candidates := [edge.id]
    chosen := some edge.id
    pathSoFar := []
    viterbiSnapshot := some (vSnapshot mc) }

/-- The frame pushed after each backtracking step (the frame id uses the
node reached after following the recorded predecessor). -/
def vBacktrackFrame (curr : Int) (path : List (List Char))
    (mc : List (VNode α)) : StepFrame α :=
  { id := strL "frame-backtrack-" ++ intDigits curr
    description := strL "Backtracking chose " ++ (path.headD [])
    candidates := []
    chosen := some (path.headD [])
    pathSoFar := path
    viterbiSnapshot := some (vSnapshot mc) }

/-- The frame pushed when the greedy decoder inspects a node. -/
def gConsiderFrame (current : Nat) (candidates : List (TokenEdge α))
    (path : List (List Char)) : StepFrame α :=
  { id := strL "frame-consider-" ++ natDigits current
    description := strL "Considering tokens at index " ++ natDigits current
    candidates := candidates.map (·.id)
    chosen := none
    pathSoFar := path
    viterbiSnapshot := none }

/-- The frame pushed when the greedy decoder chooses an edge (the candidate
list has been sorted in place by the comparator at this point). -/
def gChooseFrame (best : TokenEdge α) (sorted : List (TokenEdge α))
    (path : List (List Char)) : StepFrame α :=
  { id := strL "frame-choose-" ++ best.id
    description := strL "Chose " ++ best.label ++ strL " (" ++ best.id ++ strL ")"
    candidates := sorted.map (·.id)
    chosen := some best.id
    pathSoFar := path
    viterbiSnapshot := none }

/-- Traced single-edge relaxation: identical cost logic to `relaxStep`,
additionally appending an update frame on improvement. -/
def tRelaxStep (i : Nat) (st : List (VNode α) × List (StepFrame α))
    (edge : TokenEdge α) : List (VNode α) × List (StepFrame α) :=
  match (st.1.getD i (vDefault α)).cost with
  | none => st
  | some ci =>
    if improves (ci + edge.score) ((st.1.getD edge.eto (vDefault α)).cost)
    then
      let mc' := st.1.set edge.eto ⟨some (ci + edge.score), some edge.id, (i : Int)⟩
      (mc', st.2 ++ [vUpdateFrame i edge mc'])
    else st

/-- Traced outer Viterbi loop body for node `i`: skip unreachable nodes,
otherwise push a consider frame and relax every outgoing edge in order. -/
def tRelaxAt (edges : List (TokenEdge α))
    (st : List (VNode α) × List (StepFrame α)) (i : Nat) :
    List (VNode α) × List (StepFrame α) :=
  match (st.1.getD i (vDefault α)).cost with
  | none => st
  | some _ =>
    let outgoing := edges.filter fun e => decide (e.efrom = i)
    (outgoing.foldl (tRelaxStep i)
      (st.1, st.2 ++ [vConsiderFrame i outgoing st.1]))

/-- The traced Viterbi forward pass. -/
def tViterbiTable (edges : List (TokenEdge α)) (length : Nat) :
    List (VNode α) × List (StepFrame α) :=
  (List.range length).foldl (tRelaxAt edges) (vInit length, [])

/-- The traced backtracking loop, pushing one frame per recovered edge. -/
def tBacktrack (mc : List (VNode α)) :
    Nat → Int → List (List Char) → List (StepFrame α) →
    List (List Char) × List (StepFrame α)
  | 0, _, path, frames => (path, frames)
  | fuel + 1, curr, path, frames =>
    if 0 < curr then
      match (mc.getD curr.toNat (vDefault α)).edgeId with
      | none => (path, frames)
      | some eid =>
        tBacktrack mc fuel (mc.getD curr.toNat (vDefault α)).prevNode (eid :: path)
          (frames ++ [vBacktrackFrame (mc.getD curr.toNat (vDefault α)).prevNode
            (eid :: path) mc])
    else (path, frames)

/-- The traced greedy loop, pushing a consider frame per node and a choose
frame per selected edge. -/
def tGreedyGo (edges : List (TokenEdge α)) (length : Nat) :
    Nat → Nat → List (List Char) → List (StepFrame α) →
    List (List Char) × List (StepFrame α)
  | 0, _, path, frames => (path, frames)
  | fuel + 1, current, path, frames =>
    if current < length then
      match sortCandidates (edges.filter fun e => decide (e.efrom = current)) with
      | [] => (path, frames ++
          [gConsiderFrame current (edges.filter fun e => decide (e.efrom = current)) path])
      | best :: rest =>
        tGreedyGo edges length fuel best.eto (path ++ [best.id])
          ((frames ++
            [gConsiderFrame current (edges.filter fun e => decide (e.efrom = current)) path]) ++
            [gChooseFrame best (best :: rest) (path ++ [best.id])])
    else (path, frames)

/-- The traced entry point `tokenizeWithTrace` of
`src/utils/tokenizerEngine.ts`: the same lattice and decoding logic as
`tokenize`, with an ordered frame list for playback. -/
def tokenizeWithTrace (exp log : α → α) (lower nfd : List Char → List Char)
    (inputText : List Char) (algo : AlgorithmType) (normalize : Bool)
    (customVocab : Option (List (VocabItem α))) :
    TokenizerResult α × List (StepFrame α) :=
  let processedText := if normalize then normalizeText lower nfd inputText else inputText
  let lattice := buildLattice exp log processedText algo customVocab
  let edges := lattice.1
  if algo = AlgorithmType.UNIGRAM then
    let st := tViterbiTable edges processedText.length
    let pf := tBacktrack st.1 (processedText.length + 1) (processedText.length : Int) [] st.2
    (⟨⟨lattice.2, edges, processedText⟩, pf.1, tokensOf edges pf.1⟩, pf.2)
  else
    let pf := tGreedyGo edges processedText.length (processedText.length + 1) 0 [] []
    (⟨⟨lattice.2, edges, processedText⟩, pf.1, tokensOf edges pf.1⟩, pf.2)

end Traced

section TracedLemmas

variable {α : Type} [LinearOrderedField α]

theorem tRelaxStep_of_none {st : List (VNode α) × List (StepFrame α)} {i : Nat}
    (e : TokenEdge α) (h : (st.1.getD i (vDefault α)).cost = none) :
    tRelaxStep i st e = st := by
  unfold tRelaxStep
  rw [h]

theorem tRelaxStep_of_some {st : List (VNode α) × List (StepFrame α)} {i : Nat}
    {ci : α} (e : TokenEdge α) (h : (st.1.getD i (vDefault α)).cost = some ci) :
    tRelaxStep i st e =
      if improves (ci + e.score) ((st.1.getD e.eto (vDefault α)).cost)
      then (st.1.set e.eto ⟨some (ci + e.score), some e.id, (i : Int)⟩,
        st.2 ++ [vUpdateFrame i e
          (st.1.set e.eto ⟨some (ci + e.score), some e.id, (i : Int)⟩)])
      else st := by
  unfold tRelaxStep
  rw [h]

theorem tRelaxStep_fst (i : Nat) (st : List (VNode α) × List (StepFrame α))
    (e : TokenEdge α) : (tRelaxStep i st e).1 = relaxStep st.1 i e := by
  cases hci : (st.1.getD i (vDefault α)).cost with
  | none => rw [tRelaxStep_of_none e hci, relaxStep_of_none e hci]
  | some ci =>
    rw [tRelaxStep_of_some e hci, relaxStep_of_some e hci]
    by_cases hb : improves (ci + e.score) ((st.1.getD e.eto (vDefault α)).cost) = true
    · rw [if_pos hb, if_pos hb]
    · rw [if_neg hb, if_neg hb]

theorem tRelaxFold_fst (i : Nat) :
    ∀ (l : List (TokenEdge α)) (st : List (VNode α) × List (StepFrame α)),
    (l.foldl (tRelaxStep i) st).1 =
      l.foldl (fun m e => relaxStep m i e) st.1 := by
  intro l
  induction l with
  | nil => intro st; rfl
  | cons e t ih =>
    intro st
    rw [List.foldl_cons, List.foldl_cons, ih, tRelaxStep_fst]

theorem tRelaxAt_fst (edges : List (TokenEdge α))
    (st : List (VNode α) × List (StepFrame α)) (i : Nat) :
    (tRelaxAt edges st i).1 = relaxAt edges st.1 i := by
  unfold tRelaxAt
  cases hci : (st.1.getD i (vDefault α)).cost with
  | none => rw [relaxAt_of_none hci]
  | some c =>
    rw [relaxAt_of_some hci]
    exact tRelaxFold_fst i _ _

theorem tViterbiFold_fst (edges : List (TokenEdge α)) :
    ∀ (l : List Nat) (st : List (VNode α) × List (StepFrame α)),
    (l.foldl (tRelaxAt edges) st).1 = l.foldl (relaxAt edges) st.1 := by
  intro l
  induction l with
  | nil => intro st; rfl
  | cons i t ih =>
    intro st
    rw [List.foldl_cons, List.foldl_cons, ih, tRelaxAt_fst]

theorem tViterbiTable_fst (edges : List (TokenEdge α)) (n : Nat) :
    (tViterbiTable edges n).1 = viterbiTable edges n := by
  unfold tViterbiTable viterbiTable
  exact tViterbiFold_fst edges _ _

theorem tBacktrack_fst (mc : List (VNode α)) :
    ∀ (fuel : Nat) (curr : Int) (path : List (List Char))
      (frames : List (StepFrame α)),
    (tBacktrack mc fuel curr path frames).1 = vBacktrack mc fuel curr path := by
  intro fuel
  induction fuel with
  | zero => intro curr path frames; rfl
  | succ f ih =>
    intro curr path frames
    simp only [tBacktrack, vBacktrack]
    by_cases hc : 0 < curr
    · rw [if_pos hc, if_pos hc]
      cases (mc.getD curr.toNat (vDefault α)).edgeId with
      | none => rfl
      | some eid => exact ih _ _ _
    · rw [if_neg hc, if_neg hc]

theorem tGreedyGo_fst (edges : List (TokenEdge α)) (n : Nat) :
    ∀ (fuel current : Nat) (path : List (List Char))
      (frames : List (StepFrame α)),
    (tGreedyGo edges n fuel current path frames).1 =
      path ++ greedyGo edges n fuel current := by
  intro fuel
  induction fuel with
  | zero => intro current path frames; simp [tGreedyGo, greedyGo]
  | succ f ih =>
    intro current path frames
    simp only [tGreedyGo, greedyGo]
    by_cases hc : current < n
    · rw [if_pos hc, if_pos hc]
      cases hs : sortCandidates (edges.filter fun e => decide (e.efrom = current)) with
      | nil => simp
      | cons best rest =>
        rw [ih]
        rw [List.append_assoc]
        rfl
    · rw [if_neg hc, if_neg hc]
      simp

/-- Helper shape of a tokenizer result whose token list is derived from its
selected path. -/
def mkResult (nodes : List Nat) (E : List (TokenEdge α)) (txt : List Char)
    (p : List (List Char)) : TokenizerResult α :=
  ⟨⟨nodes, E, txt⟩, p, tokensOf E p⟩

/-- The traced tokenizer returns exactly the result of the untraced one. -/
theorem tokenizeWithTrace_fst (exp log : α → α)
    (lower nfd : List Char → List Char) (t : List Char) (algo : AlgorithmType)
    (norm : Bool) (cv : Option (List (VocabItem α))) :
    (tokenizeWithTrace exp log lower nfd t algo norm cv).1 =
      tokenize exp log lower nfd t algo norm cv := by
  cases algo with
  | UNIGRAM =>
    have hpath : (tBacktrack (tViterbiTable
        (buildLattice exp log (if norm then normalizeText lower nfd t else t)
          AlgorithmType.UNIGRAM cv).1
        (if norm then normalizeText lower nfd t else t).length).1
        ((if norm then normalizeText lower nfd t else t).length + 1)
        ((if norm then normalizeText lower nfd t else t).length : Int) []
        (tViterbiTable
          (buildLattice exp log (if norm then normalizeText lower nfd t else t)
            AlgorithmType.UNIGRAM cv).1
          (if norm then normalizeText lower nfd t else t).length).2).1 =
        viterbiDecode
          (buildLattice exp log (if norm then normalizeText lower nfd t else t)
            AlgorithmType.UNIGRAM cv).1
          (if norm then normalizeText lower nfd t else t).length := by
      rw [tBacktrack_fst, tViterbiTable_fst]
      rfl
    exact congrArg (mkResult
      (buildLattice exp log (if norm then normalizeText lower nfd t else t)
        AlgorithmType.UNIGRAM cv).2
      (buildLattice exp log (if norm then normalizeText lower nfd t else t)
        AlgorithmType.UNIGRAM cv).1
      (if norm then normalizeText lower nfd t else t)) hpath
  | BPE =>
    have hpath : (tGreedyGo
        (buildLattice exp log (if norm then normalizeText lower nfd t else t)
          AlgorithmType.BPE cv).1
        (if norm then normalizeText lower nfd t else t).length
        ((if norm then normalizeText lower nfd t else t).length + 1) 0 [] []).1 =
        greedyDecode
          (buildLattice exp log (if norm then normalizeText lower nfd t else t)
            AlgorithmType.BPE cv).1
          (if norm then normalizeText lower nfd t else t).length := by
      rw [tGreedyGo_fst]
      rfl
    exact congrArg (mkResult
      (buildLattice exp log (if norm then normalizeText lower nfd t else t)
        AlgorithmType.BPE cv).2
      (buildLattice exp log (if norm then normalizeText lower nfd t else t)
        AlgorithmType.BPE cv).1
      (if norm then normalizeText lower nfd t else t)) hpath
  | WORDPIECE =>
    have hpath : (tGreedyGo
        (buildLattice exp log (if norm then normalizeText lower nfd t else t)
          AlgorithmType.WORDPIECE cv).1
        (if norm then normalizeText lower nfd t else t).length
        ((if norm then normalizeText lower nfd t else t).length + 1) 0 [] []).1 =
        greedyDecode
          (buildLattice exp log (if norm then normalizeText lower nfd t else t)
            AlgorithmType.WORDPIECE cv).1
          (if norm then normalizeText lower nfd t else t).length := by
      rw [tGreedyGo_fst]
      rfl
    exact congrArg (mkResult
      (buildLattice exp log (if norm then normalizeText lower nfd t else t)
        AlgorithmType.WORDPIECE cv).2
      (buildLattice exp log (if norm then normalizeText lower nfd t else t)
        AlgorithmType.WORDPIECE cv).1
      (if norm then normalizeText lower nfd t else t)) hpath

end TracedLemmas

section TraceReconstruct

variable {α : Type} [LinearOrderedField α]

/-- The accumulated path carried by the last frame of a trace (empty when
there are no frames): the replay interpretation of a frame list. -/
def lastPathSoFar (frames : List (StepFrame α)) : List (List Char) :=
  ((frames.getLast?).map (·.pathSoFar)).getD []

theorem tGreedyGo_last (edges : List (TokenEdge α)) (n : Nat) :
    ∀ (fuel current : Nat) (path : List (List Char))
      (frames : List (StepFrame α)),
    ((tGreedyGo edges n fuel current path frames).2.getLast?).map (·.pathSoFar) =
        some (tGreedyGo edges n fuel current path frames).1 ∨
      tGreedyGo edges n fuel current path frames = (path, frames) := by
  intro fuel
  induction fuel with
  | zero => intro current path frames; exact Or.inr rfl
  | succ f ih =>
    intro current path frames
    by_cases hc : current < n
    · cases hs : sortCandidates (edges.filter fun e => decide (e.efrom = current)) with
      | nil =>
        have heq : tGreedyGo edges n (f + 1) current path frames =
            (path, frames ++ [gConsiderFrame current
              (edges.filter fun e => decide (e.efrom = current)) path]) := by
          simp only [tGreedyGo]
          rw [if_pos hc, hs]
        rw [heq]
        left
        rw [List.getLast?_append]
        rfl
      | cons best rest =>
        have heq : tGreedyGo edges n (f + 1) current path frames =
            tGreedyGo edges n f best.eto (path ++ [best.id])
              ((frames ++ [gConsiderFrame current
                (edges.filter fun e => decide (e.efrom = current)) path]) ++
                [gChooseFrame best (best :: rest) (path ++ [best.id])]) := by
          simp only [tGreedyGo]
          rw [if_pos hc, hs]
        rw [heq]
        rcases ih best.eto (path ++ [best.id])
          ((frames ++ [gConsiderFrame current
            (edges.filter fun e => decide (e.efrom = current)) path]) ++
            [gChooseFrame best (best :: rest) (path ++ [best.id])]) with h | h
        · exact Or.inl h
        · left
          rw [h]
          rw [List.getLast?_append]
          rfl
    · have heq : tGreedyGo edges n (f + 1) current path frames = (path, frames) := by
        simp only [tGreedyGo]
        rw [if_neg hc]
      rw [heq]
      exact Or.inr rfl

theorem tBacktrack_last (mc : List (VNode α)) :
    ∀ (fuel : Nat) (curr : Int) (path : List (List Char))
      (frames : List (StepFrame α)),
    ((tBacktrack mc fuel curr path frames).2.getLast?).map (·.pathSoFar) =
        some (tBacktrack mc fuel curr path frames).1 ∨
      tBacktrack mc fuel curr path frames = (path, frames) := by
  intro fuel
  induction fuel with
  | zero => intro curr path frames; exact Or.inr rfl
  | succ f ih =>
    intro curr path frames
    by_cases hc : 0 < curr
    · cases he : (mc.getD curr.toNat (vDefault α)).edgeId with
      | none =>
        have heq : tBacktrack mc (f + 1) curr path frames = (path, frames) := by
          simp only [tBacktrack]
          rw [if_pos hc, he]
        rw [heq]
        exact Or.inr rfl
      | some eid =>
        have heq : tBacktrack mc (f + 1) curr path frames =
            tBacktrack mc f (mc.getD curr.toNat (vDefault α)).prevNode (eid :: path)
              (frames ++ [vBacktrackFrame (mc.getD curr.toNat (vDefault α)).prevNode
                (eid :: path) mc]) := by
          simp only [tBacktrack]
          rw [if_pos hc, he]
        rw [heq]
        rcases ih (mc.getD curr.toNat (vDefault α)).prevNode (eid :: path)
          (frames ++ [vBacktrackFrame (mc.getD curr.toNat (vDefault α)).prevNode
            (eid :: path) mc]) with h | h
        · exact Or.inl h
        · left
          rw [h]
          rw [List.getLast?_append]
          rfl
    · have heq : tBacktrack mc (f + 1) curr path frames = (path, frames) := by
        simp only [tBacktrack]
        rw [if_neg hc]
      rw [heq]
      exact Or.inr rfl

theorem tRelaxFold_frames_empty (i : Nat) :
    ∀ (l : List (TokenEdge α)) (st : List (VNode α) × List (StepFrame α)),
    (∀ f ∈ st.2, f.pathSoFar = []) →
    ∀ f ∈ (l.foldl (tRelaxStep i) st).2, f.pathSoFar = [] := by
  intro l
  induction l with
  | nil => intro st h; exact h
  | cons e t ih =>
    intro st h
    rw [List.foldl_cons]
    refine ih (tRelaxStep i st e) ?_
    intro f hf
    cases hci : (st.1.getD i (vDefault α)).cost with
    | none =>
      rw [tRelaxStep_of_none e hci] at hf
      exact h f hf
    | some ci =>
      rw [tRelaxStep_of_some e hci] at hf
      by_cases hb : improves (ci + e.score) ((st.1.getD e.eto (vDefault α)).cost) = true
      · rw [if_pos hb] at hf
        simp only at hf
        rcases List.mem_append.mp hf with h' | h'
        · exact h f h'
        · simp only [List.mem_singleton] at h'
          subst h'
          rfl
      · rw [if_neg hb] at hf
        exact h f hf

theorem tViterbiFold_frames_empty (edges : List (TokenEdge α)) :
    ∀ (l : List Nat) (st : List (VNode α) × List (StepFrame α)),
    (∀ f ∈ st.2, f.pathSoFar = []) →
    ∀ f ∈ (l.foldl (tRelaxAt edges) st).2, f.pathSoFar = [] := by
  intro l
  induction l with
  | nil => intro st h; exact h
  | cons i t ih =>
    intro st h
    rw [List.foldl_cons]
    refine ih (tRelaxAt edges st i) ?_
    intro f hf
    unfold tRelaxAt at hf
    cases hci : (st.1.getD i (vDefault α)).cost with
    | none =>
      rw [hci] at hf
      exact h f hf
    | some c =>
      rw [hci] at hf
      refine tRelaxFold_frames_empty i _ _ ?_ f hf
      intro g hg
      simp only at hg
      rcases List.mem_append.mp hg with h' | h'
      · exact h g h'
      · simp only [List.mem_singleton] at h'
        subst h'
        rfl

theorem tViterbiTable_frames_empty (edges : List (TokenEdge α)) (n : Nat) :
    ∀ f ∈ (tViterbiTable edges n).2, f.pathSoFar = [] := by
  unfold tViterbiTable
  exact tViterbiFold_frames_empty edges _ _ (by simp)

/-- Replaying the frame list of a traced tokenization (taking the
accumulated path of the last frame) reconstructs the selected path. -/
theorem tokenizeWithTrace_reconstruct (exp log : α → α)
    (lower nfd : List Char → List Char) (t : List Char) (algo : AlgorithmType)
    (norm : Bool) (cv : Option (List (VocabItem α))) :
    lastPathSoFar (tokenizeWithTrace exp log lower nfd t algo norm cv).2 =
      (tokenizeWithTrace exp log lower nfd t algo norm cv).1.selectedPath := by
  cases algo with
  | UNIGRAM =>
    show lastPathSoFar (tBacktrack _ _ _ [] _).2 = (tBacktrack _ _ _ [] _).1
    rcases tBacktrack_last (tViterbiTable
        (buildLattice exp log (if norm then normalizeText lower nfd t else t)
          AlgorithmType.UNIGRAM cv).1
        (if norm then normalizeText lower nfd t else t).length).1
        ((if norm then normalizeText lower nfd t else t).length + 1)
        ((if norm then normalizeText lower nfd t else t).length : Int) []
        (tViterbiTable
          (buildLattice exp log (if norm then normalizeText lower nfd t else t)
            AlgorithmType.UNIGRAM cv).1
          (if norm then normalizeText lower nfd t else t).length).2 with h | h
    · unfold lastPathSoFar
      rw [h]
      rfl
    · rw [h]
      show lastPathSoFar (tViterbiTable _ _).2 = []
      unfold lastPathSoFar
      cases hl : (tViterbiTable
          (buildLattice exp log (if norm then normalizeText lower nfd t else t)
            AlgorithmType.UNIGRAM cv).1
          (if norm then normalizeText lower nfd t else t).length).2.getLast? with
      | none => rfl
      | some fr =>
        have hmem := List.mem_of_mem_getLast? hl
        have := tViterbiTable_frames_empty
          (buildLattice exp log (if norm then normalizeText lower nfd t else t)
            AlgorithmType.UNIGRAM cv).1
          (if norm then normalizeText lower nfd t else t).length fr hmem
        simp [this]
  | BPE =>
    show lastPathSoFar (tGreedyGo _ _ _ 0 [] []).2 = (tGreedyGo _ _ _ 0 [] []).1
    rcases tGreedyGo_last
        (buildLattice exp log (if norm then normalizeText lower nfd t else t)
          AlgorithmType.BPE cv).1
        (if norm then normalizeText lower nfd t else t).length
        ((if norm then normalizeText lower nfd t else t).length + 1) 0 [] [] with h | h
    · unfold lastPathSoFar
      rw [h]
      rfl
    · rw [h]
      rfl
  | WORDPIECE =>
    show lastPathSoFar (tGreedyGo _ _ _ 0 [] []).2 = (tGreedyGo _ _ _ 0 [] []).1
    rcases tGreedyGo_last
        (buildLattice exp log (if norm then normalizeText lower nfd t else t)
          AlgorithmType.WORDPIECE cv).1
        (if norm then normalizeText lower nfd t else t).length
        ((if norm then normalizeText lower nfd t else t).length + 1) 0 [] [] with h | h
    · unfold lastPathSoFar
      rw [h]
      rfl
    · rw [h]
      rfl

end TraceReconstruct

/-! ### Score independence of the greedy pipeline -/

/-- Everything about an edge except its score. -/
def eraseScore {α : Type} (e : TokenEdge α) : TokenEdge Unit :=
  ⟨e.id, e.efrom, e.eto, e.label, ()⟩

section EraseLemmas

variable {α : Type} [LinearOrderedField α]

theorem map_eq_map_cases {β γ : Type} (f : β → γ) :
    ∀ {l₁ l₂ : List β}, l₁.map f = l₂.map f →
    (l₁ = [] ∧ l₂ = []) ∨
    ∃ a₁ t₁ a₂ t₂, l₁ = a₁ :: t₁ ∧ l₂ = a₂ :: t₂ ∧ f a₁ = f a₂ ∧
      t₁.map f = t₂.map f := by
  intro l₁ l₂ h
  cases l₁ with
  | nil =>
    cases l₂ with
    | nil => exact Or.inl ⟨rfl, rfl⟩
    | cons b t => simp at h
  | cons a s =>
    cases l₂ with
    | nil => simp at h
    | cons b t =>
      simp only [List.map_cons, List.cons.injEq] at h
      exact Or.inr ⟨a, s, b, t, rfl, rfl, h.1, h.2⟩

theorem find?_token_congr (p : List Char → Bool) :
    ∀ {l₁ l₂ : List (VocabItem α)},
    l₁.map (·.token) = l₂.map (·.token) →
    (l₁.find? fun v => p v.token).map (·.token) =
      (l₂.find? fun v => p v.token).map (·.token) := by
  intro l₁
  induction l₁ with
  | nil =>
    intro l₂ h
    cases l₂ with
    | nil => rfl
    | cons b t => simp at h
  | cons a s ih =>
    intro l₂ h
    cases l₂ with
    | nil => simp at h
    | cons b t =>
      simp only [List.map_cons, List.cons.injEq] at h
      rw [List.find?_cons, List.find?_cons, h.1]
      cases hp : p b.token with
      | true =>
        simp only [Option.map_some']
        rw [h.1]
      | false => exact ih h.2

theorem findMatch_bare {v : List (VocabItem α)} {algo : AlgorithmType}
    {text : List Char} {i j : Nat} {w : VocabItem α}
    (h : (v.find? fun x => decide (x.token = (text.drop i).take (j - i))) = some w) :
    findMatch v algo text i j = some w := by
  simp only [findMatch]
  rw [h]

theorem findMatch_nobare {v : List (VocabItem α)} {algo : AlgorithmType}
    {text : List Char} {i j : Nat}
    (h : (v.find? fun x => decide (x.token = (text.drop i).take (j - i))) = none) :
    findMatch v algo text i j =
      if algo = AlgorithmType.WORDPIECE ∧ 0 < i then
        v.find? fun x => decide (x.token = '#' :: '#' :: (text.drop i).take (j - i))
      else none := by
  simp only [findMatch]
  rw [h]

theorem findMatch_token_congr {v₁ v₂ : List (VocabItem α)}
    (h : v₁.map (·.token) = v₂.map (·.token)) (algo : AlgorithmType)
    (text : List Char) (i j : Nat) :
    (findMatch v₁ algo text i j).map (·.token) =
      (findMatch v₂ algo text i j).map (·.token) := by
  have h1 := find?_token_congr
    (fun tok => decide (tok = (text.drop i).take (j - i))) h
  have h2 := find?_token_congr
    (fun tok => decide (tok = '#' :: '#' :: (text.drop i).take (j - i))) h
  cases hf1 : v₁.find? fun v => decide (v.token = (text.drop i).take (j - i)) with
  | some w₁ =>
    rw [hf1] at h1
    cases hf2 : v₂.find? fun v => decide (v.token = (text.drop i).take (j - i)) with
    | none => rw [hf2] at h1; simp at h1
    | some w₂ =>
      rw [hf2] at h1
      rw [findMatch_bare hf1, findMatch_bare hf2]
      simpa using h1
  | none =>
    rw [hf1] at h1
    cases hf2 : v₂.find? fun v => decide (v.token = (text.drop i).take (j - i)) with
    | some w₂ => rw [hf2] at h1; simp at h1
    | none =>
      rw [findMatch_nobare hf1, findMatch_nobare hf2]
      by_cases hc : algo = AlgorithmType.WORDPIECE ∧ 0 < i
      · rw [if_pos hc, if_pos hc]
        exact h2
      · rw [if_neg hc, if_neg hc]

theorem erase_mkMatchEdge (log log' : α → α) (algo : AlgorithmType)
    (u₁ b₁ u₂ b₂ : List (List Char × α)) (text : List Char) (i j : Nat)
    {w₁ w₂ : VocabItem α} (h : w₁.token = w₂.token) :
    eraseScore (mkMatchEdge log algo u₁ b₁ text i j w₁) =
      eraseScore (mkMatchEdge log' algo u₂ b₂ text i j w₂) := by
  unfold eraseScore mkMatchEdge
  simp [h]

theorem matchedEdges_erase_congr {v₁ v₂ : List (VocabItem α)}
    (h : v₁.map (·.token) = v₂.map (·.token)) (log log' : α → α)
    (algo : AlgorithmType) (u₁ b₁ u₂ b₂ : List (List Char × α))
    (text : List Char) (i : Nat) :
    (matchedEdges log algo v₁ u₁ b₁ text i).map eraseScore =
      (matchedEdges log' algo v₂ u₂ b₂ text i).map eraseScore := by
  unfold matchedEdges
  rw [List.map_filterMap, List.map_filterMap]
  refine List.filterMap_congr ?_
  intro j _
  have hm := findMatch_token_congr h algo text i j
  cases hf1 : findMatch v₁ algo text i j with
  | none =>
    rw [hf1] at hm
    cases hf2 : findMatch v₂ algo text i j with
    | none => rfl
    | some w₂ => rw [hf2] at hm; simp at hm
  | some w₁ =>
    rw [hf1] at hm
    cases hf2 : findMatch v₂ algo text i j with
    | none => rw [hf2] at hm; simp at hm
    | some w₂ =>
      rw [hf2] at hm
      simp only [Option.map_some', Option.some.injEq] at hm ⊢
      exact erase_mkMatchEdge log log' algo u₁ b₁ u₂ b₂ text i j hm

theorem edgesAt_erase_congr {v₁ v₂ : List (VocabItem α)}
    (h : v₁.map (·.token) = v₂.map (·.token)) (log log' : α → α)
    (algo : AlgorithmType) (u₁ b₁ u₂ b₂ : List (List Char × α))
    (text : List Char) (i : Nat) :
    (edgesAt log algo v₁ u₁ b₁ text i).map eraseScore =
      (edgesAt log' algo v₂ u₂ b₂ text i).map eraseScore := by
  unfold edgesAt
  have hme := matchedEdges_erase_congr h log log' algo u₁ b₁ u₂ b₂ text i
  by_cases h1 : matchedEdges log algo v₁ u₁ b₁ text i = []
  · have h2 : matchedEdges log' algo v₂ u₂ b₂ text i = [] := by
      rw [h1] at hme
      exact List.map_eq_nil_iff.mp hme.symm
    rw [if_pos h1, if_pos h2]
  · have h2 : matchedEdges log' algo v₂ u₂ b₂ text i ≠ [] := by
      intro hh
      rw [hh] at hme
      exact h1 (List.map_eq_nil_iff.mp hme)
    rw [if_neg h1, if_neg h2]
    exact hme

theorem buildLattice_erase_congr {v₁ v₂ : List (VocabItem α)}
    (h : v₁.map (·.token) = v₂.map (·.token)) (exp exp' log log' : α → α)
    (text : List Char) (algo : AlgorithmType) :
    (buildLattice exp log text algo (some v₁)).1.map eraseScore =
      (buildLattice exp' log' text algo (some v₂)).1.map eraseScore := by
  unfold buildLattice
  rw [List.map_flatMap, List.map_flatMap]
  have hfun : (fun i => (edgesAt log algo (vocabOf (some v₁))
      (uniProbsOf exp (some v₁)) (bpeRanksOf (some v₁)) text i).map eraseScore) =
      (fun i => (edgesAt log' algo (vocabOf (some v₂))
        (uniProbsOf exp' (some v₂)) (bpeRanksOf (some v₂)) text i).map eraseScore) :=
    funext fun i => edgesAt_erase_congr h log log' algo _ _ _ _ text i
  rw [hfun]

end EraseLemmas

/-! ### Score independence: the greedy pipeline through erased scores -/

section EraseGreedy

variable {α : Type} [LinearOrderedField α]

theorem insertBySpan_erase_congr {e₁ e₂ : TokenEdge α}
    (he : eraseScore e₁ = eraseScore e₂) :
    ∀ {l₁ l₂ : List (TokenEdge α)}, l₁.map eraseScore = l₂.map eraseScore →
    (insertBySpan e₁ l₁).map eraseScore = (insertBySpan e₂ l₂).map eraseScore := by
  have hspe : spanInt e₁ = spanInt e₂ := by
    have h1 : e₁.eto = e₂.eto := congrArg (fun d : TokenEdge Unit => d.eto) he
    have h2 : e₁.efrom = e₂.efrom := congrArg (fun d : TokenEdge Unit => d.efrom) he
    unfold spanInt
    rw [h1, h2]
  intro l₁
  induction l₁ with
  | nil =>
    intro l₂ h
    cases l₂ with
    | nil => simpa [insertBySpan] using he
    | cons b t => simp at h
  | cons c cs ih =>
    intro l₂ h
    cases l₂ with
    | nil => simp at h
    | cons d t =>
      simp only [List.map_cons, List.cons.injEq] at h
      obtain ⟨hcd, hrest⟩ := h
      have hsp : spanInt c = spanInt d := by
        have h1 : c.eto = d.eto := congrArg (fun x : TokenEdge Unit => x.eto) hcd
        have h2 : c.efrom = d.efrom := congrArg (fun x : TokenEdge Unit => x.efrom) hcd
        unfold spanInt
        rw [h1, h2]
      simp only [insertBySpan]
      by_cases hgt : spanInt c > spanInt e₁
      · rw [if_pos hgt, if_pos (by rw [← hsp, ← hspe]; exact hgt)]
        simp only [List.map_cons, List.cons.injEq]
        exact ⟨hcd, ih hrest⟩
      · rw [if_neg hgt, if_neg (by rw [← hsp, ← hspe]; exact hgt)]
        simp only [List.map_cons, List.cons.injEq]
        exact ⟨he, hcd, hrest⟩

theorem sortCandidates_erase_congr :
    ∀ {l₁ l₂ : List (TokenEdge α)}, l₁.map eraseScore = l₂.map eraseScore →
    (sortCandidates l₁).map eraseScore = (sortCandidates l₂).map eraseScore := by
  intro l₁
  induction l₁ with
  | nil =>
    intro l₂ h
    cases l₂ with
    | nil => rfl
    | cons b t => simp at h
  | cons c cs ih =>
    intro l₂ h
    cases l₂ with
    | nil => simp at h
    | cons d t =>
      simp only [List.map_cons, List.cons.injEq] at h
      simp only [sortCandidates, List.foldr_cons]
      exact insertBySpan_erase_congr h.1 (ih h.2)

theorem filter_from_erase_congr (c : Nat) :
    ∀ {E₁ E₂ : List (TokenEdge α)}, E₁.map eraseScore = E₂.map eraseScore →
    (E₁.filter fun e => decide (e.efrom = c)).map eraseScore =
      (E₂.filter fun e => decide (e.efrom = c)).map eraseScore := by
  intro E₁
  induction E₁ with
  | nil =>
    intro E₂ h
    cases E₂ with
    | nil => rfl
    | cons b t => simp at h
  | cons a s ih =>
    intro E₂ h
    cases E₂ with
    | nil => simp at h
    | cons b t =>
      simp only [List.map_cons, List.cons.injEq] at h
      obtain ⟨hab, hst⟩ := h
      have hfrom : a.efrom = b.efrom := congrArg (fun x : TokenEdge Unit => x.efrom) hab
      rw [List.filter_cons, List.filter_cons, hfrom]
      by_cases hbc : b.efrom = c
      · rw [if_pos (by simp [hbc]), if_pos (by simp [hbc])]
        simp only [List.map_cons, List.cons.injEq]
        exact ⟨hab, ih hst⟩
      · rw [if_neg (by simp [hbc]), if_neg (by simp [hbc])]
        exact ih hst

theorem greedyGo_erase_congr {E₁ E₂ : List (TokenEdge α)}
    (hE : E₁.map eraseScore = E₂.map eraseScore) (length : Nat) :
    ∀ fuel current, greedyGo E₁ length fuel current = greedyGo E₂ length fuel current := by
  intro fuel
  induction fuel with
  | zero => intro current; rfl
  | succ f ih =>
    intro current
    simp only [greedyGo]
    by_cases hcur : current < length
    · rw [if_pos hcur, if_pos hcur]
      have hs := sortCandidates_erase_congr (filter_from_erase_congr current hE)
      cases h1 : sortCandidates (E₁.filter fun e => decide (e.efrom = current)) with
      | nil =>
        rw [h1] at hs
        have h2 : sortCandidates (E₂.filter fun e => decide (e.efrom = current)) = [] :=
          List.map_eq_nil_iff.mp hs.symm
        rw [h2]
      | cons b₁ t₁ =>
        rw [h1] at hs
        cases h2 : sortCandidates (E₂.filter fun e => decide (e.efrom = current)) with
        | nil => rw [h2] at hs; simp at hs
        | cons b₂ t₂ =>
          rw [h2] at hs
          simp only [List.map_cons, List.cons.injEq] at hs
          have hid : b₁.id = b₂.id := congrArg (fun x : TokenEdge Unit => x.id) hs.1
          have heto : b₁.eto = b₂.eto := congrArg (fun x : TokenEdge Unit => x.eto) hs.1
          show b₁.id :: greedyGo E₁ length f b₁.eto = b₂.id :: greedyGo E₂ length f b₂.eto
          rw [hid, heto, ih b₂.eto]
    · rw [if_neg hcur, if_neg hcur]

theorem find_id_erase_congr :
    ∀ {E₁ E₂ : List (TokenEdge α)}, E₁.map eraseScore = E₂.map eraseScore →
    ∀ i : List Char,
    ((E₁.find? fun e => decide (e.id = i)).map (·.label)) =
      ((E₂.find? fun e => decide (e.id = i)).map (·.label)) := by
  intro E₁
  induction E₁ with
  | nil =>
    intro E₂ h i
    cases E₂ with
    | nil => rfl
    | cons b t => simp at h
  | cons a s ih =>
    intro E₂ h i
    cases E₂ with
    | nil => simp at h
    | cons b t =>
      simp only [List.map_cons, List.cons.injEq] at h
      obtain ⟨hab, hst⟩ := h
      have hid : a.id = b.id := congrArg (fun x : TokenEdge Unit => x.id) hab
      have hlab : a.label = b.label := congrArg (fun x : TokenEdge Unit => x.label) hab
      rw [List.find?_cons, List.find?_cons, hid]
      cases hd : decide (b.id = i) with
      | false => exact ih hst i
      | true => simp [hlab]

theorem tokensOf_erase_congr {E₁ E₂ : List (TokenEdge α)}
    (hE : E₁.map eraseScore = E₂.map eraseScore) (p : List (List Char)) :
    tokensOf E₁ p = tokensOf E₂ p := by
  unfold tokensOf
  have hfun : (fun i => ((E₁.find? fun e => decide (e.id = i)).map (·.label)).getD []) =
      (fun i => ((E₂.find? fun e => decide (e.id = i)).map (·.label)).getD []) :=
    funext fun i => by rw [find_id_erase_congr hE i]
  rw [hfun]

end EraseGreedy

section ClaimC10

variable {α : Type} [LinearOrderedField α]

theorem tokenize_greedy_congr_aux (exp log exp' log' : α → α) (txt : List Char)
    (algo : AlgorithmType) (v₁ v₂ : List (VocabItem α))
    (hv : v₁.map (·.token) = v₂.map (·.token)) :
    greedyDecode (buildLattice exp log txt algo (some v₁)).1 txt.length =
      greedyDecode (buildLattice exp' log' txt algo (some v₂)).1 txt.length ∧
    tokensOf (buildLattice exp log txt algo (some v₁)).1
        (greedyDecode (buildLattice exp log txt algo (some v₁)).1 txt.length) =
      tokensOf (buildLattice exp' log' txt algo (some v₂)).1
        (greedyDecode (buildLattice exp' log' txt algo (some v₂)).1 txt.length) := by
  have hE := buildLattice_erase_congr hv exp exp' log log' txt algo
  have hpath : greedyDecode (buildLattice exp log txt algo (some v₁)).1 txt.length =
      greedyDecode (buildLattice exp' log' txt algo (some v₂)).1 txt.length :=
    greedyGo_erase_congr hE txt.length (txt.length + 1) 0
  refine ⟨hpath, ?_⟩
  rw [hpath]
  exact tokensOf_erase_congr hE _

/-- C10: for the greedy algorithms (BPE and WORDPIECE), the selected path
and the final token list of `tokenize` are independent of the vocabulary
scores: two custom vocabularies carrying the same token strings in the same
order (with arbitrarily different numeric scores, and under arbitrary
`Math.exp`/`Math.log` semantics) produce the identical `selectedPath` (same
edge identifiers) and identical `tokens`. -/
theorem C10_greedy_score_independence (exp log exp' log' : α → α)
    (lower nfd : List Char → List Char) (inputText : List Char)
    (algo : AlgorithmType) (normalize : Bool)
    (v₁ v₂ : List (VocabItem α))
    (hv : v₁.map (·.token) = v₂.map (·.token))
    (halgo : algo ≠ AlgorithmType.UNIGRAM) :
    (tokenize exp log lower nfd inputText algo normalize (some v₁)).selectedPath =
      (tokenize exp' log' lower nfd inputText algo normalize (some v₂)).selectedPath ∧
    (tokenize exp log lower nfd inputText algo normalize (some v₁)).tokens =
      (tokenize exp' log' lower nfd inputText algo normalize (some v₂)).tokens := by
  cases algo with
  | UNIGRAM => exact absurd rfl halgo
  | BPE =>
    obtain ⟨h1, h2⟩ := tokenize_greedy_congr_aux exp log exp' log'
      (if normalize then normalizeText lower nfd inputText else inputText)
      AlgorithmType.BPE v₁ v₂ hv
    exact ⟨h1, h2⟩
  | WORDPIECE =>
    obtain ⟨h1, h2⟩ := tokenize_greedy_congr_aux exp log exp' log'
      (if normalize then normalizeText lower nfd inputText else inputText)
      AlgorithmType.WORDPIECE v₁ v₂ hv
    exact ⟨h1, h2⟩

end ClaimC10

/-- Witness for C10 at a concrete input: vocabularies `[{a, 1}]` and
`[{a, 5}]` differ only in scores and give the same selected path and
tokens on the input `"ab"` under BPE. -/
theorem C10_greedy_score_independence_witness :
    (([⟨['a'], 1⟩] : List (VocabItem ℚ)).map (·.token) =
      ([⟨['a'], 5⟩] : List (VocabItem ℚ)).map (·.token)) ∧
    (AlgorithmType.BPE ≠ AlgorithmType.UNIGRAM) ∧
    ((tokenize id id id id ['a', 'b'] AlgorithmType.BPE false
        (some [⟨['a'], (1 : ℚ)⟩])).selectedPath =
      (tokenize id id id id ['a', 'b'] AlgorithmType.BPE false
        (some [⟨['a'], (5 : ℚ)⟩])).selectedPath ∧
     (tokenize id id id id ['a', 'b'] AlgorithmType.BPE false
        (some [⟨['a'], (1 : ℚ)⟩])).tokens =
      (tokenize id id id id ['a', 'b'] AlgorithmType.BPE false
        (some [⟨['a'], (5 : ℚ)⟩])).tokens) :=
  ⟨by decide, by decide,
    C10_greedy_score_independence id id id id id id ['a', 'b'] AlgorithmType.BPE false
      [⟨['a'], 1⟩] [⟨['a'], 5⟩] (by decide) (by decide)⟩

/-! ### Normalization: trim and strip lemmas -/

section NormalizeLemmas

theorem dropWhile_append_all {p : Char → Bool} {a : List Char}
    (ha : ∀ c ∈ a, p c = true) (t : List Char) :
    (a ++ t).dropWhile p = t.dropWhile p := by
  rw [List.dropWhile_append]
  have h : (a.dropWhile p).isEmpty = true := by
    rw [List.isEmpty_iff, List.dropWhile_eq_nil_iff]
    exact ha
  rw [if_pos h]

theorem trimWs_all_nil {t : List Char} (ht : ∀ c ∈ t, isJsWs c = true) :
    trimWs t = [] := by
  unfold trimWs
  have h1 : t.dropWhile isJsWs = [] := List.dropWhile_eq_nil_iff.mpr ht
  rw [h1]
  rfl

theorem trimWs_append_outer {a b : List Char}
    (ha : ∀ c ∈ a, isJsWs c = true) (hb : ∀ c ∈ b, isJsWs c = true)
    (t : List Char) :
    trimWs (a ++ t ++ b) = trimWs t := by
  unfold trimWs
  rw [List.append_assoc, dropWhile_append_all ha]
  rw [List.dropWhile_append]
  by_cases h : (t.dropWhile isJsWs).isEmpty = true
  · rw [if_pos h]
    have hbnil : b.dropWhile isJsWs = [] := List.dropWhile_eq_nil_iff.mpr hb
    rw [hbnil, List.isEmpty_iff.mp h]
  · rw [if_neg h]
    rw [List.reverse_append]
    rw [dropWhile_append_all (fun c hc => hb c (List.mem_reverse.mp hc))]

theorem trim_decomp (s : List Char) :
    ∃ a b, s = a ++ trimWs s ++ b ∧
      (∀ c ∈ a, isJsWs c = true) ∧ (∀ c ∈ b, isJsWs c = true) := by
  have h1 : s = s.takeWhile isJsWs ++ s.dropWhile isJsWs :=
    (List.takeWhile_append_dropWhile (p := isJsWs) (l := s)).symm
  have h2 : s.dropWhile isJsWs =
      trimWs s ++ ((s.dropWhile isJsWs).reverse.takeWhile isJsWs).reverse := by
    have h3 : (s.dropWhile isJsWs).reverse =
        (s.dropWhile isJsWs).reverse.takeWhile isJsWs ++
          (s.dropWhile isJsWs).reverse.dropWhile isJsWs :=
      (List.takeWhile_append_dropWhile (p := isJsWs)
        (l := (s.dropWhile isJsWs).reverse)).symm
    have h4 := congrArg List.reverse h3
    rw [List.reverse_reverse, List.reverse_append] at h4
    exact h4
  refine ⟨s.takeWhile isJsWs,
    ((s.dropWhile isJsWs).reverse.takeWhile isJsWs).reverse, ?_, ?_, ?_⟩
  · rw [List.append_assoc, ← h2]
    exact h1
  · exact fun c hc => List.mem_takeWhile_imp hc
  · exact fun c hc => List.mem_takeWhile_imp (List.mem_reverse.mp hc)

theorem ws_not_mark {c : Char} (h : isJsWs c = true) :
    isCombiningMark c = false := by
  unfold isJsWs jsWsCodes at h
  unfold isCombiningMark
  simp only [List.mem_cons, List.not_mem_nil, or_false, decide_eq_true_eq] at h
  simp only [decide_eq_false_iff_not, not_and, not_le]
  intro hle
  omega

theorem stripMarks_all_ws {a : List Char} (ha : ∀ c ∈ a, isJsWs c = true) :
    stripMarks a = a := by
  unfold stripMarks
  rw [List.filter_eq_self]
  intro c hc
  rw [ws_not_mark (ha c hc)]
  rfl

theorem stripMarks_idem (s : List Char) :
    stripMarks (stripMarks s) = stripMarks s := by
  unfold stripMarks
  rw [List.filter_filter]
  congr 1
  funext c
  cases isCombiningMark c <;> rfl

theorem trim_strip_trim (s : List Char) :
    trimWs (stripMarks (trimWs s)) = trimWs (stripMarks s) := by
  obtain ⟨a, b, hdec, ha, hb⟩ := trim_decomp s
  conv_rhs => rw [hdec]
  unfold stripMarks
  rw [List.filter_append, List.filter_append]
  have hfa : a.filter (fun c => !isCombiningMark c) = a := by
    rw [List.filter_eq_self]
    intro c hc
    rw [ws_not_mark (ha c hc)]
    rfl
  have hfb : b.filter (fun c => !isCombiningMark c) = b := by
    rw [List.filter_eq_self]
    intro c hc
    rw [ws_not_mark (hb c hc)]
    rfl
  rw [hfa, hfb]
  exact (trimWs_append_outer ha hb _).symm

end NormalizeLemmas

/-- C6: the normalizer is idempotent: `normalize(normalize(x)) = normalize(x)`.
The runtime Unicode tables are abstract here, so the JS facts about them
enter as hypotheses: `toLowerCase` and `normalize("NFD")` commute with
trimming (both map whitespace code points to themselves and never produce
or consume whitespace at the ends), and the lower-then-decompose pipeline
fixes its own mark-stripped images (lower-case NFD-decomposed text without
combining marks is already lower-case and decomposed).  The trimming and
mark-stripping parts are discharged unconditionally by the lemma stack
above. -/
theorem C6_normalizeText_idem (lower nfd : List Char → List Char)
    (hlow : ∀ s, lower (trimWs s) = trimWs (lower s))
    (hnfd : ∀ s, nfd (trimWs s) = trimWs (nfd s))
    (hfix : ∀ s, nfd (lower (stripMarks (nfd (lower s)))) = stripMarks (nfd (lower s)))
    (x : List Char) :
    normalizeText lower nfd (normalizeText lower nfd x) =
      normalizeText lower nfd x := by
  unfold normalizeText
  rw [hlow, hnfd, trim_strip_trim, hfix, stripMarks_idem]

/-- Witness for C6 at a concrete input: with the identity Unicode tables
(for which the three hypotheses hold definitionally), normalizing
`" á "` twice equals normalizing it once. -/
theorem C6_normalizeText_idem_witness :
    ((∀ s : List Char, id (trimWs s) = trimWs (id s)) ∧
     (∀ s : List Char, id (trimWs s) = trimWs (id s)) ∧
     (∀ s : List Char,
       id (id (stripMarks (id (id s)))) = stripMarks (id (id s)))) ∧
    normalizeText id id (normalizeText id id [' ', 'a', '́', ' ']) =
      normalizeText id id [' ', 'a', '́', ' '] :=
  ⟨⟨fun _ => rfl, fun _ => rfl, fun _ => rfl⟩,
    C6_normalizeText_idem id id (fun _ => rfl) (fun _ => rfl) (fun _ => rfl)
      [' ', 'a', '́', ' ']⟩

/-! ### Per-position edges of the lattice -/

section ClaimC7

variable {α : Type} [LinearOrderedField α]

theorem filter_from_flatMap {f : Nat → List (TokenEdge α)} :
    ∀ {L : List Nat}, L.Nodup →
    (∀ j ∈ L, ∀ e ∈ f j, e.efrom = j) → ∀ {i : Nat}, i ∈ L →
    (L.flatMap f).filter (fun e => decide (e.efrom = i)) = f i := by
  intro L
  induction L with
  | nil => intro _ _ i hi; exact absurd hi (List.not_mem_nil i)
  | cons j t ih =>
    intro hnd hf i hi
    rw [List.flatMap_cons, List.filter_append]
    rcases List.mem_cons.mp hi with hji | hit
    · subst hji
      have h1 : (f i).filter (fun e => decide (e.efrom = i)) = f i := by
        rw [List.filter_eq_self]
        intro e he
        simp [hf i (List.mem_cons_self i t) e he]
      have h2 : (t.flatMap f).filter (fun e => decide (e.efrom = i)) = [] := by
        rw [List.filter_eq_nil_iff]
        intro e he
        obtain ⟨u, hu, he'⟩ := List.mem_flatMap.mp he
        have heq := hf u (List.mem_cons_of_mem i hu) e he'
        have hne : u ≠ i := fun hh => (List.nodup_cons.mp hnd).1 (by rw [← hh]; exact hu)
        simp [heq, hne]
      rw [h1, h2, List.append_nil]
    · have hne : j ≠ i := fun hh => (List.nodup_cons.mp hnd).1 (by rw [hh]; exact hit)
      have h1 : (f j).filter (fun e => decide (e.efrom = i)) = [] := by
        rw [List.filter_eq_nil_iff]
        intro e he
        simp [hf j (List.mem_cons_self j t) e he, hne]
      rw [h1, List.nil_append]
      exact ih (List.nodup_cons.mp hnd).2
        (fun u hu => hf u (List.mem_cons_of_mem j hu)) hit

theorem lattice_filter_at (exp log : α → α) (text : List Char)
    (algo : AlgorithmType) (cv : Option (List (VocabItem α))) {i : Nat}
    (hi : i < text.length) :
    (buildLattice exp log text algo cv).1.filter (fun e => decide (e.efrom = i)) =
      edgesAt log algo (vocabOf cv) (uniProbsOf exp cv) (bpeRanksOf cv) text i := by
  unfold buildLattice
  refine filter_from_flatMap (List.nodup_range _) ?_ (List.mem_range.mpr hi)
  intro j hj e he
  exact (edgesAt_bounds log algo _ _ _ text (List.mem_range.mp hj) he).1

/-- C7: structural invariants of the built lattice, for every text,
algorithm and vocabulary: (1) every edge moves strictly forward and stays
inside the text (`0 ≤ from < to ≤ len`, hence the graph is acyclic);
(2) every position `i < len` has at least one outgoing edge; (3) when no
vocabulary token matches at `i` (the matched-edge list of the loop body is
empty), the edges leaving `i` are exactly the one single-character fallback
edge `(i, i+1, text[i])` with the fixed penalty score `10`. -/
theorem C7_lattice_invariants (exp log : α → α) (text : List Char)
    (algo : AlgorithmType) (customVocab : Option (List (VocabItem α))) :
    (∀ e ∈ (buildLattice exp log text algo customVocab).1,
        e.efrom < e.eto ∧ e.eto ≤ text.length) ∧
    (∀ i, i < text.length →
        ∃ e ∈ (buildLattice exp log text algo customVocab).1, e.efrom = i) ∧
    (∀ i, i < text.length →
        matchedEdges log algo (vocabOf customVocab) (uniProbsOf exp customVocab)
          (bpeRanksOf customVocab) text i = [] →
        (buildLattice exp log text algo customVocab).1.filter
            (fun e => decide (e.efrom = i)) =
          [fallbackEdge text i] ∧
        (fallbackEdge text i : TokenEdge α).efrom = i ∧
        (fallbackEdge text i : TokenEdge α).eto = i + 1 ∧
        (fallbackEdge text i : TokenEdge α).label = (text.drop i).take 1 ∧
        (fallbackEdge text i : TokenEdge α).score = 10) := by
  refine ⟨fun e he => lattice_fwd log algo text he,
    fun i hi => lattice_cov log algo text hi,
    fun i hi hm => ⟨?_, rfl, rfl, rfl, rfl⟩⟩
  rw [lattice_filter_at exp log text algo customVocab hi]
  unfold edgesAt
  rw [if_pos hm]

end ClaimC7

section ClaimC3

variable {α : Type} [LinearOrderedField α]

/-- C3: for every input text, algorithm, normalize flag and vocabulary
(including the empty one), the selected path of `tokenize` resolves to a
connected walk from node `0` to node `len(text)` — consecutive edges chain
(`walkEnds`) — and the concatenation of the selected edges' spans is
exactly the offset range `[0, len(text))`, in order, with no gaps and no
overlaps. -/
theorem C3_selected_path_walk_coverage (exp log : α → α)
    (lower nfd : List Char → List Char) (t : List Char) (algo : AlgorithmType)
    (norm : Bool) (cv : Option (List (VocabItem α))) :
    ∃ p : List (TokenEdge α),
      resolvePath (tokenize exp log lower nfd t algo norm cv).graph.edges
        (tokenize exp log lower nfd t algo norm cv).selectedPath = p ∧
      (tokenize exp log lower nfd t algo norm cv).selectedPath = p.map (·.id) ∧
      walkEnds p 0 (tokenize exp log lower nfd t algo norm cv).graph.text.length ∧
      (p.map spanOffsets).flatten =
        List.range' 0 (tokenize exp log lower nfd t algo norm cv).graph.text.length := by
  obtain ⟨p, hpE, hw, hid, hres, _⟩ :=
    tokenize_selected_walk exp log lower nfd t algo norm cv
  have hedges : (tokenize exp log lower nfd t algo norm cv).graph.edges =
      (buildLattice exp log (if norm then normalizeText lower nfd t else t) algo cv).1 := rfl
  have hfwd : ∀ e ∈ p, e.efrom < e.eto := fun e he =>
    (lattice_fwd log algo _ (by rw [← hedges]; exact hpE e he)).1
  have hcov := walkEnds_coverage hfwd hw
  rw [Nat.sub_zero] at hcov
  exact ⟨p, hres, hid, hw, hcov⟩

end ClaimC3

section ClaimC4

variable {α : Type} [LinearOrderedField α]

/-- C4: for the greedy algorithms (BPE and WORDPIECE) the selected path is
computed by the spec-side greedy decoder: at every step, among the edges
outgoing from the current node, the edge of maximum span is chosen with the
first-encountered edge winning ties (`chooseGreedy` returns an element `e`
of the candidate list such that every candidate has span `≤ spanInt e` and
every candidate strictly before `e` has span `< spanInt e`), no lookahead
is used, and on a dead end (`chooseGreedy` returns `none` exactly on an
empty candidate list) the loop stops with the partial path accumulated so
far. -/
theorem C4_greedy_max_span (exp log : α → α)
    (lower nfd : List Char → List Char) (t : List Char)
    (norm : Bool) (cv : Option (List (VocabItem α))) :
    ((tokenize exp log lower nfd t AlgorithmType.BPE norm cv).selectedPath =
      greedySpecDecode
        (tokenize exp log lower nfd t AlgorithmType.BPE norm cv).graph.edges
        (tokenize exp log lower nfd t AlgorithmType.BPE norm cv).graph.text.length) ∧
    ((tokenize exp log lower nfd t AlgorithmType.WORDPIECE norm cv).selectedPath =
      greedySpecDecode
        (tokenize exp log lower nfd t AlgorithmType.WORDPIECE norm cv).graph.edges
        (tokenize exp log lower nfd t AlgorithmType.WORDPIECE norm cv).graph.text.length) ∧
    (∀ (l : List (TokenEdge α)) (e : TokenEdge α), chooseGreedy l = some e →
      (∀ c ∈ l, spanInt c ≤ spanInt e) ∧
      (∃ l₁ l₂, l = l₁ ++ e :: l₂ ∧ ∀ c ∈ l₁, spanInt c < spanInt e)) ∧
    (∀ l : List (TokenEdge α), chooseGreedy l = none ↔ l = []) := by
  refine ⟨?_, ?_, ?_, ?_⟩
  · exact greedyDecode_eq_spec _ _
  · exact greedyDecode_eq_spec _ _
  · intro l e h
    obtain ⟨hfirst, hmax⟩ := chooseGreedy_spec h
    exact ⟨hmax, hfirst⟩
  · intro l
    exact chooseGreedy_eq_none

end ClaimC4

section ClaimC5

variable {α : Type} [LinearOrderedField α]

/-- C5: trace fidelity.  For every input text, algorithm, normalize flag
and vocabulary, the result returned by `tokenizeWithTrace` is identical to
the untraced `tokenize` result; moreover the selected path can be
reconstructed from the frame sequence alone (it is the `partialPath` of the
last frame, empty when there are no frames), and replaying that
reconstructed path against the lattice edges recovers the final token
list. -/
theorem C5_trace_fidelity (exp log : α → α)
    (lower nfd : List Char → List Char) (t : List Char) (algo : AlgorithmType)
    (norm : Bool) (cv : Option (List (VocabItem α))) :
    (tokenizeWithTrace exp log lower nfd t algo norm cv).1 =
      tokenize exp log lower nfd t algo norm cv ∧
    lastPathSoFar (tokenizeWithTrace exp log lower nfd t algo norm cv).2 =
      (tokenize exp log lower nfd t algo norm cv).selectedPath ∧
    tokensOf (tokenize exp log lower nfd t algo norm cv).graph.edges
        (lastPathSoFar (tokenizeWithTrace exp log lower nfd t algo norm cv).2) =
      (tokenize exp log lower nfd t algo norm cv).tokens := by
  have h1 := tokenizeWithTrace_fst exp log lower nfd t algo norm cv
  have h2 := tokenizeWithTrace_reconstruct exp log lower nfd t algo norm cv
  rw [h1] at h2
  refine ⟨h1, h2, ?_⟩
  rw [h2]
  rfl

end ClaimC5

section ClaimC2

variable {α : Type} [LinearOrderedField α]

/-- C2: for the probabilistic (UNIGRAM) algorithm, the path selected by
`tokenize` resolves to a root-to-sink walk of the lattice whose summed edge
score is less than or equal to the summed edge score of every other walk
from node `0` to node `len(text)` built from lattice edges: the single-pass
DAG relaxation of `viterbiDecode` is exact shortest-path. -/
theorem C2_viterbi_shortest_path (exp log : α → α)
    (lower nfd : List Char → List Char) (t : List Char)
    (norm : Bool) (cv : Option (List (VocabItem α))) :
    ∃ p : List (TokenEdge α),
      (∀ e ∈ p,
        e ∈ (tokenize exp log lower nfd t AlgorithmType.UNIGRAM norm cv).graph.edges) ∧
      walkEnds p 0
        (tokenize exp log lower nfd t AlgorithmType.UNIGRAM norm cv).graph.text.length ∧
      (tokenize exp log lower nfd t AlgorithmType.UNIGRAM norm cv).selectedPath =
        p.map (·.id) ∧
      resolvePath
        (tokenize exp log lower nfd t AlgorithmType.UNIGRAM norm cv).graph.edges
        (tokenize exp log lower nfd t AlgorithmType.UNIGRAM norm cv).selectedPath = p ∧
      ∀ q : List (TokenEdge α),
        (∀ e ∈ q,
          e ∈ (tokenize exp log lower nfd t AlgorithmType.UNIGRAM norm cv).graph.edges) →
        walkEnds q 0
          (tokenize exp log lower nfd t AlgorithmType.UNIGRAM norm cv).graph.text.length →
        pathCost p ≤ pathCost q := by
  obtain ⟨p, hpE, hw, hdec, hopt⟩ := viterbiDecode_opt
    (buildLattice_hfwd exp log (if norm then normalizeText lower nfd t else t)
      AlgorithmType.UNIGRAM cv)
    (buildLattice_hcov exp log (if norm then normalizeText lower nfd t else t)
      AlgorithmType.UNIGRAM cv)
  have hsel : (tokenize exp log lower nfd t AlgorithmType.UNIGRAM norm cv).selectedPath =
      p.map (·.id) := hdec
  refine ⟨p, hpE, hw, hsel, ?_, hopt⟩
  rw [hsel]
  exact resolvePath_map_id
    (buildLattice_huniq exp log (if norm then normalizeText lower nfd t else t)
      AlgorithmType.UNIGRAM cv) p hpE

end ClaimC2

section ClaimC1

variable {α : Type} [LinearOrderedField α]

/-- C1 counterexample: with vocabulary `[{a}, {##a}]`, input `"aa"` and
WORDPIECE, at start position `1 > 0` the substring `"a"` has a
continuation-marked entry `"##a"` in the vocabulary, yet the builder
matches the bare entry: `findMatch` returns the bare item and no lattice
edge carries the label `"##a"`.  This refutes the claimed preference for
the `##`-marked entry whenever it exists. -/
theorem C1_counterexample :
    findMatch (α := ℚ) [⟨['a'], 1⟩, ⟨['#', '#', 'a'], 1⟩]
        AlgorithmType.WORDPIECE ['a', 'a'] 1 2 = some ⟨['a'], 1⟩ ∧
    (⟨['#', '#', 'a'], 1⟩ : VocabItem ℚ) ∈
      ([⟨['a'], 1⟩, ⟨['#', '#', 'a'], 1⟩] : List (VocabItem ℚ)) ∧
    ∀ e ∈ (buildLattice (α := ℚ) id id ['a', 'a'] AlgorithmType.WORDPIECE
        (some [⟨['a'], 1⟩, ⟨['#', '#', 'a'], 1⟩])).1,
      e.label ≠ ['#', '#', 'a'] := by
  refine ⟨by decide, by decide, by decide⟩

/-- C1 (amended): the matching preference is the reverse of the claimed
one.  In WORDPIECE mode, for every start position `i` and candidate
substring `text[i:j]`, the builder uses the bare vocabulary entry whenever
one equals the substring; the continuation-marked entry `"##" + substring`
is consulted only when no bare entry matches, and only for `i > 0`. -/
theorem C1_bare_match_precedence (v : List (VocabItem α))
    (text : List Char) (i j : Nat) :
    findMatch v AlgorithmType.WORDPIECE text i j =
      Option.or (v.find? fun x => decide (x.token = (text.drop i).take (j - i)))
        (if 0 < i then
          v.find? fun x => decide (x.token = '#' :: '#' :: (text.drop i).take (j - i))
        else none) := by
  cases hf : v.find? fun x => decide (x.token = (text.drop i).take (j - i)) with
  | some w => rw [findMatch_bare hf]; rfl
  | none =>
    rw [findMatch_nobare hf]
    by_cases hi : 0 < i
    · rw [if_pos ⟨rfl, hi⟩, if_pos hi]
      rfl
    · rw [if_neg (fun hc => hi hc.2), if_neg hi]
      rfl

end ClaimC1

section ClaimC8

variable {α : Type} [LinearOrderedField α]

/-- C8 counterexample: with the custom vocabulary `[{a, 1}, {b, 5}]` and
input `"b"` under BPE, the matched edge for `"b"` carries score `1` — the
token's zero-based index in the supplied list — while the claimed rank in
descending-raw-score order would be `0` (the raw score `5` of `"b"` is the
highest).  So the BPE rank of a custom vocabulary is the list index, not
the descending-score rank. -/
theorem C8_counterexample :
    (∃ e ∈ (buildLattice (α := ℚ) id id ['b'] AlgorithmType.BPE
        (some [⟨['a'], 1⟩, ⟨['b'], 5⟩])).1,
      e.label = ['b'] ∧ e.score = 1 ∧ e.score ≠ 0) ∧
    objGet (rankTable (sortByScoreDesc
        ([⟨['a'], 1⟩, ⟨['b'], 5⟩] : List (VocabItem ℚ)))) ['b'] = some 0 := by
  refine ⟨by decide, by decide⟩

/-- C8 (amended): every lattice edge is either the single-character
fallback edge of its start position, carrying the fixed penalty score `10`,
or a matched edge whose score is the per-algorithm `matchScore`:
`-log` of the floored probability lookup for UNIGRAM (floor `1/10000`
substituted when the token is absent or has probability `0`), the rank
lookup with sentinel `999` for BPE, and the substring length for WORDPIECE.
For a supplied custom vocabulary the probability table is the softmax of
the raw scores and the rank table maps each token to its zero-based index
in the supplied list order (not the descending-raw-score order the claim
stated). -/
theorem C8_edge_score_classification (exp log : α → α) (text : List Char)
    (algo : AlgorithmType) (cv : Option (List (VocabItem α))) :
    (∀ e ∈ (buildLattice exp log text algo cv).1,
      (e = fallbackEdge text e.efrom ∧ e.score = 10) ∨
      (∃ i j w, findMatch (vocabOf cv) algo text i j = some w ∧
        e = mkMatchEdge log algo (uniProbsOf exp cv) (bpeRanksOf cv) text i j w ∧
        e.score = matchScore log algo (uniProbsOf exp cv) (bpeRanksOf cv) w
          ((text.drop i).take (j - i)))) ∧
    (∀ (uniProbs bpeRanks : List (List Char × α)) (w : VocabItem α) (s : List Char),
      matchScore log AlgorithmType.UNIGRAM uniProbs bpeRanks w s =
        -(log (probFloor (objGet uniProbs w.token))) ∧
      matchScore log AlgorithmType.BPE uniProbs bpeRanks w s =
        (objGet bpeRanks w.token).getD 999 ∧
      matchScore log AlgorithmType.WORDPIECE uniProbs bpeRanks w s =
        ((s.length : Nat) : α)) ∧
    (∀ v : List (VocabItem α),
      uniProbsOf exp (some v) = softmaxTable exp v ∧
      bpeRanksOf (some v) = rankTable v) := by
  refine ⟨?_, fun _ _ _ _ => ⟨rfl, rfl, rfl⟩, fun v => ⟨rfl, rfl⟩⟩
  intro e he
  obtain ⟨i, hi, hmem⟩ := (mem_buildLattice log algo text).mp he
  rcases (mem_edgesAt log algo _ _ _ text).mp hmem with hm | ⟨_, he'⟩
  · obtain ⟨j, hj, w, hfm, he'⟩ :=
      (mem_matchedEdges log algo _ _ _ text).mp hm
    right
    refine ⟨i, j, w, hfm, he', ?_⟩
    rw [he']
    rfl
  · left
    subst he'
    exact ⟨rfl, rfl⟩

end ClaimC8

section ClaimC9

variable {α : Type} [LinearOrderedField α]

theorem findMatch_nil (algo : AlgorithmType) (text : List Char) (i j : Nat) :
    findMatch ([] : List (VocabItem α)) algo text i j = none := by
  simp only [findMatch, List.find?_nil]
  split <;> rfl

theorem matchedEdges_nil (log : α → α) (algo : AlgorithmType)
    (u b : List (List Char × α)) (text : List Char) (i : Nat) :
    matchedEdges log algo ([] : List (VocabItem α)) u b text i = [] := by
  unfold matchedEdges
  rw [List.filterMap_eq_nil_iff]
  intro j _
  rw [findMatch_nil]
  rfl

theorem flatMap_pure (f : Nat → TokenEdge α) :
    ∀ L : List Nat, L.flatMap (fun i => [f i]) = L.map f := by
  intro L
  induction L with
  | nil => rfl
  | cons j t ih => simp only [List.flatMap_cons, List.map_cons, ih]; rfl

theorem buildLattice_empty_vocab (exp log : α → α) (text : List Char)
    (algo : AlgorithmType) :
    (buildLattice exp log text algo (some ([] : List (VocabItem α)))).1 =
      (List.range text.length).map fun i => fallbackEdge text i := by
  have h : (fun i => edgesAt log algo (vocabOf (some ([] : List (VocabItem α))))
      (uniProbsOf exp (some [])) (bpeRanksOf (some [])) text i) =
      (fun i => [fallbackEdge text i]) := by
    funext i
    unfold edgesAt
    rw [if_pos (show matchedEdges log algo (vocabOf (some ([] : List (VocabItem α))))
      (uniProbsOf exp (some [])) (bpeRanksOf (some [])) text i = [] from
      matchedEdges_nil log algo _ _ text i)]
  show (List.range text.length).flatMap
      (fun i => edgesAt log algo (vocabOf (some ([] : List (VocabItem α))))
        (uniProbsOf exp (some [])) (bpeRanksOf (some [])) text i) =
    (List.range text.length).map fun i => fallbackEdge text i
  rw [h, flatMap_pure]

theorem walk_fallback_unique {text : List Char} :
    ∀ (p : List (TokenEdge α)) (a : Nat),
    (∀ e ∈ p, ∃ i, i < text.length ∧ e = fallbackEdge text i) →
    walkEnds p a text.length →
    p = (List.range' a (text.length - a)).map fun i => fallbackEdge text i := by
  intro p
  induction p with
  | nil =>
    intro a _ hw
    have ha : a = text.length := hw
    rw [ha, Nat.sub_self]
    rfl
  | cons e t ih =>
    intro a hall hw
    obtain ⟨hefrom, hwt⟩ := hw
    obtain ⟨i, hilen, hei⟩ := hall e (List.mem_cons_self e t)
    have hia : i = a := by
      have hfi : e.efrom = i := by rw [hei]; rfl
      rw [← hfi, hefrom]
    subst hia
    have heto : e.eto = i + 1 := by rw [hei]; rfl
    have ht := ih (i + 1) (fun f hf => hall f (List.mem_cons_of_mem e hf))
      (by rw [← heto]; exact hwt)
    have hlen : text.length - i = (text.length - (i + 1)) + 1 := by omega
    rw [hlen, List.range'_succ, List.map_cons, ← ht, hei]

theorem range_map_take_one :
    ∀ text : List Char,
    (List.range text.length).map (fun i => (text.drop i).take 1) =
      text.map fun c => [c] := by
  intro text
  induction text with
  | nil => rfl
  | cons c rest ih =>
    show (List.range (rest.length + 1)).map _ = _
    rw [List.range_succ_eq_map]
    simp only [List.map_cons, List.map_map]
    have hf : ((fun i => ((c :: rest).drop i).take 1) ∘ (· + 1)) =
        (fun i => (rest.drop i).take 1) := rfl
    rw [hf, ih]
    rfl

/-- C9 (amended): the empty-vocabulary prong holds, in general form: with a
supplied empty vocabulary, every position of the text gets exactly the
single-character fallback edge, the selected path is those fallback edges
in order, and the tokens are the characters of the text — character-level
degradation, not a failure.  (The missing-vocabulary prong of the claim is
refuted by the counterexample: a missing vocabulary is replaced by
`MOCK_VOCAB`, not by character fallback.) -/
theorem C9_empty_vocab_char_tokenization (exp log : α → α)
    (lower nfd : List Char → List Char) (algo : AlgorithmType)
    (text : List Char) :
    (tokenize exp log lower nfd text algo false
        (some ([] : List (VocabItem α)))).graph.edges =
      (List.range text.length).map (fun i => fallbackEdge text i) ∧
    (tokenize exp log lower nfd text algo false
        (some ([] : List (VocabItem α)))).selectedPath =
      (List.range text.length).map (fun i => (fallbackEdge text i : TokenEdge α).id) ∧
    (tokenize exp log lower nfd text algo false
        (some ([] : List (VocabItem α)))).tokens =
      text.map (fun c => [c]) := by
  have hedges : (tokenize exp log lower nfd text algo false
      (some ([] : List (VocabItem α)))).graph.edges =
      (buildLattice exp log text algo (some [])).1 := rfl
  obtain ⟨p, hpE, hw, hid, hres, htok⟩ :=
    tokenize_selected_walk exp log lower nfd text algo false (some [])
  have hwt : walkEnds p 0 text.length := hw
  have hall : ∀ e ∈ p, ∃ i, i < text.length ∧ e = fallbackEdge text i := by
    intro e he
    have hmem : e ∈ (buildLattice exp log text algo (some [])).1 := hpE e he
    rw [buildLattice_empty_vocab] at hmem
    obtain ⟨i, hi, hei⟩ := List.mem_map.mp hmem
    exact ⟨i, List.mem_range.mp hi, hei.symm⟩
  have hp := walk_fallback_unique p 0 hall hwt
  rw [Nat.sub_zero, ← List.range_eq_range'] at hp
  refine ⟨?_, ?_, ?_⟩
  · rw [hedges, buildLattice_empty_vocab]
  · rw [hid, hp, List.map_map]
    rfl
  · rw [htok, hp, List.map_map]
    have hlab : ((fun e : TokenEdge α => e.label) ∘ fun i => fallbackEdge text i) =
        (fun i => (text.drop i).take 1) := rfl
    rw [hlab, range_map_take_one]

end ClaimC9

section MockVocabFacts

variable {α : Type} [LinearOrderedField α]

theorem perm_insertByScore (v : VocabItem α) :
    ∀ l : List (VocabItem α), List.Perm (insertByScore v l) (v :: l) := by
  intro l
  induction l with
  | nil => exact List.Perm.refl _
  | cons c cs ih =>
    show List.Perm
      (if c.score > v.score then c :: insertByScore v cs else v :: c :: cs) _
    by_cases h : c.score > v.score
    · rw [if_pos h]
      exact (List.Perm.cons c ih).trans (List.Perm.swap v c cs)
    · rw [if_neg h]

theorem perm_sortByScoreDesc :
    ∀ l : List (VocabItem α), List.Perm (sortByScoreDesc l) l := by
  intro l
  induction l with
  | nil => exact List.Perm.refl _
  | cons c cs ih =>
    show List.Perm (insertByScore c (sortByScoreDesc cs)) _
    exact (perm_insertByScore c _).trans (List.Perm.cons c ih)

theorem find?_unique {p : VocabItem α → Bool} {x : VocabItem α} :
    ∀ {l : List (VocabItem α)}, x ∈ l → p x = true →
    (∀ y ∈ l, p y = true → y = x) → l.find? p = some x := by
  intro l
  induction l with
  | nil => intro h _ _; exact absurd h (List.not_mem_nil x)
  | cons a t ih =>
    intro hx hp hu
    by_cases ha : p a = true
    · rw [List.find?_cons_of_pos _ ha]
      exact congrArg some (hu a (List.mem_cons_self a t) ha)
    · rw [List.find?_cons_of_neg _ (by simpa using ha)]
      have hxt : x ∈ t := by
        rcases List.mem_cons.mp hx with h | h
        · subst h; exact absurd hp ha
        · exact h
      exact ih hxt hp fun y hy => hu y (List.mem_cons_of_mem a hy)

end MockVocabFacts

theorem mock_find_bare_a :
    ((MOCK_VOCAB ℚ).find? fun v => decide (v.token = ['a'])) =
      some ⟨['a'], 1⟩ := by
  apply find?_unique
  · exact ((perm_sortByScoreDesc (FALLBACK_VOCAB ℚ)).mem_iff).mpr (by decide)
  · decide
  · intro y hy hp
    have hyF : y ∈ FALLBACK_VOCAB ℚ :=
      ((perm_sortByScoreDesc (FALLBACK_VOCAB ℚ)).mem_iff).mp hy
    have hall : ∀ v ∈ FALLBACK_VOCAB ℚ, v.token = ['a'] → v = ⟨['a'], 1⟩ := by
      decide
    exact hall y hyF (by simpa using hp)

theorem mock_findMatch_a :
    findMatch (MOCK_VOCAB ℚ) AlgorithmType.WORDPIECE ['a'] 0 1 =
      some ⟨['a'], 1⟩ :=
  findMatch_bare (show ((MOCK_VOCAB ℚ).find? fun x =>
    decide (x.token = (['a'].drop 0).take (1 - 0))) = some ⟨['a'], 1⟩ from
    mock_find_bare_a)

theorem mock_matched_a (u b : List (List Char × ℚ)) :
    matchedEdges id AlgorithmType.WORDPIECE (MOCK_VOCAB ℚ) u b ['a'] 0 =
      [mkMatchEdge id AlgorithmType.WORDPIECE u b ['a'] 0 1 ⟨['a'], 1⟩] := by
  unfold matchedEdges
  show (List.range' 1 1).filterMap _ = _
  rw [show List.range' 1 1 = [1] from rfl]
  simp only [List.filterMap_cons, List.filterMap_nil, mock_findMatch_a,
    Option.map_some']

theorem mock_lattice_a :
    (buildLattice (α := ℚ) id id ['a'] AlgorithmType.WORDPIECE none).1 =
      [mkMatchEdge id AlgorithmType.WORDPIECE (uniProbsOf id none)
        (bpeRanksOf none) ['a'] 0 1 ⟨['a'], 1⟩] := by
  show (List.range 1).flatMap (fun i => edgesAt id AlgorithmType.WORDPIECE
    (vocabOf none) (uniProbsOf id none) (bpeRanksOf none) ['a'] i) = _
  rw [show List.range 1 = [0] from rfl]
  simp only [List.flatMap_cons, List.flatMap_nil]
  rw [show vocabOf (α := ℚ) none = MOCK_VOCAB ℚ from rfl]
  unfold edgesAt
  rw [mock_matched_a (uniProbsOf id none) (bpeRanksOf none)]
  rw [if_neg (List.cons_ne_nil _ _)]
  exact List.append_nil _

/-- C9 counterexample (missing-vocabulary prong): tokenizing `"a"` with NO
vocabulary supplied does not degrade to the claimed single-character
fallback edge — the engine substitutes `MOCK_VOCAB`, which matches `"a"` at
position `0`, so the selected path differs from the fallback-edge id and
the lattice's edge `(0, 1)` is a scored vocabulary match, not a
penalty-`10` fallback. -/
theorem C9_counterexample :
    (tokenize (α := ℚ) id id id id ['a'] AlgorithmType.WORDPIECE false
        none).selectedPath ≠ [(fallbackEdge (α := ℚ) ['a'] 0).id] ∧
    ∃ e ∈ (tokenize (α := ℚ) id id id id ['a'] AlgorithmType.WORDPIECE false
        none).graph.edges,
      e.efrom = 0 ∧ e.eto = 1 ∧ e.score ≠ 10 := by
  have hsel : (tokenize (α := ℚ) id id id id ['a'] AlgorithmType.WORDPIECE false
      none).selectedPath = greedyDecode ([mkMatchEdge id AlgorithmType.WORDPIECE
        (uniProbsOf id none) (bpeRanksOf none) ['a'] 0 1 ⟨['a'], 1⟩] :
          List (TokenEdge ℚ)) 1 := by
    show greedyDecode
      (buildLattice (α := ℚ) id id ['a'] AlgorithmType.WORDPIECE none).1 1 = _
    rw [mock_lattice_a]
  have hE : (tokenize (α := ℚ) id id id id ['a'] AlgorithmType.WORDPIECE false
      none).graph.edges = [mkMatchEdge id AlgorithmType.WORDPIECE
        (uniProbsOf id none) (bpeRanksOf none) ['a'] 0 1 ⟨['a'], 1⟩] :=
    mock_lattice_a
  constructor
  · rw [hsel]
    decide
  · rw [hE]
    decide
